import Mathlib

/-! # Nebula visualizations: the aggregation and derived-key engine of `app.js`

A shallow embedding of the pure core of `src/app.js` (the field normalizer, the set
deriver, the aggregators, the ranking helper, the cross-tabulation, the filter
predicate and the payload extraction of `fetchCards`) together with the properties
of that code.

Modelling conventions.

* A JavaScript string is the list of its characters (`Str`).  Strings holding lone
  surrogates are not represented.  The operations used by the program (`trim`,
  `includes`, the regular expression, equality) give the same answers on code
  points as on UTF-16 code units for such strings.
* A record is a plain object whose field values are primitives (`JsVal`): the data
  model reads every record field as a nullable string, number or boolean.  Numbers
  are the integers whose `String(..)` is their decimal numeral.  The key functions of
  `buildStackedData` return strings, as `deriveSet` and `normalizeText` do.
* What the host provides and the repository does not contain (the Unicode case
  tables behind `toUpperCase` and `toLowerCase`, the source text printed for a
  built-in function) is collected in `Engine` and taken as a parameter.
* A plain object `{}` is its list of own properties in creation order; reads fall
  back to `Object.prototype`.
-/

namespace Nebula

/-- A JavaScript string, as the list of its characters. -/
abbrev Str := List Char

/-! ## Strings: white space and `trim` -/

/-- The characters `String.prototype.trim` strips: ECMAScript `WhiteSpace`
(TAB, VT, FF, SP, NBSP, ZWNBSP and the Unicode space separators) and
`LineTerminator` (LF, CR, LS, PS). -/
def isJsSpace (c : Char) : Bool :=
  let n := c.toNat
  n == 0x09 || n == 0x0A || n == 0x0B || n == 0x0C || n == 0x0D || n == 0x20 ||
  n == 0xA0 || n == 0x1680 || (0x2000 ≤ n && n ≤ 0x200A) || n == 0x2028 ||
  n == 0x2029 || n == 0x202F || n == 0x205F || n == 0x3000 || n == 0xFEFF

/-- The method `String.prototype.trim`: drop the leading and the trailing white space. -/
def trim (s : Str) : Str :=
  ((s.dropWhile isJsSpace).reverse.dropWhile isJsSpace).reverse

/-- The constant `"Unknown"`, the default fallback of `normalizeText`. -/
def unknown : Str := "Unknown".toList

/-- The constant `"__proto__"`, the accessor property of `Object.prototype`. -/
def protoKey : Str := "__proto__".toList

/-- The names of the function-valued properties of `Object.prototype`
(ECMAScript, Annex B included). -/
def objectPrototypeFunctions : List Str :=
  ["constructor", "hasOwnProperty", "isPrototypeOf", "propertyIsEnumerable",
   "toLocaleString", "toString", "valueOf", "__defineGetter__", "__defineSetter__",
   "__lookupGetter__", "__lookupSetter__"].map String.toList

/-! ## The host -/

/-- What the JavaScript host supplies: the Unicode case conversions and the text
`Function.prototype.toString` prints for the built-in functions of
`Object.prototype`.  The laws are the facts about them that the development uses;
each holds in every conforming host. -/
structure Engine where
  /-- The full upper-case mapping of one code point (`toUpperCase` is context free). -/
  upperOf : Char → Str
  /-- The method `String.prototype.toLowerCase` (context sensitive: final sigma). -/
  lowerCase : Str → Str
  /-- The source text of the built-in function stored in `Object.prototype` under a name. -/
  nativeSource : Str → Str
  /-- On ASCII the upper-case mapping is the ASCII one. -/
  upperOf_ascii : ∀ c : Char, c.toNat < 128 → upperOf c = [c.toUpper]
  /-- No code point is upper-cased to the empty string. -/
  upperOf_ne_nil : ∀ c : Char, upperOf c ≠ []
  /-- No upper-case mapping contains an ASCII lower-case letter. -/
  upperOf_caps : ∀ c d : Char, d ∈ upperOf c → d.isLower = false
  /-- On ASCII strings `toLowerCase` is the ASCII one. -/
  lowerCase_ascii : ∀ s : Str, (∀ c ∈ s, c.toNat < 128) → lowerCase s = s.map Char.toLower

/-- The method `String.prototype.toUpperCase`. -/
def Engine.toUpperCase (E : Engine) (s : Str) : Str :=
  s.flatMap E.upperOf

/-- The method `String.prototype.toLowerCase`. -/
def Engine.toLowerCase (E : Engine) (s : Str) : Str :=
  E.lowerCase s

/-! ## Values -/

/-- The values the core handles: the primitives a record field or a table cell
can hold, and the two kinds of object a read can inherit from `Object.prototype`. -/
inductive JsVal where
  | undefined
  | null
  | bool (b : Bool)
  | num (n : Int)
  | nan
  | str (s : Str)
  /-- The built-in function `Object.prototype[k]`. -/
  | protoFn (k : Str)
  /-- The object `Object.prototype` itself (what the `__proto__` getter returns). -/
  | protoObj
  deriving DecidableEq, Repr

/-- The conversion `String(value)`. -/
def toStr (E : Engine) : JsVal → Str
  | .undefined => "undefined".toList
  | .null => "null".toList
  | .bool true => "true".toList
  | .bool false => "false".toList
  | .num n => (toString n).toList
  | .nan => "NaN".toList
  | .str s => s
  | .protoFn k => E.nativeSource k
  | .protoObj => "[object Object]".toList

/-- JavaScript truthiness (`ToBoolean`). -/
def truthy : JsVal → Bool
  | .undefined => false
  | .null => false
  | .bool b => b
  | .num n => n != 0
  | .nan => false
  | .str s => !s.isEmpty
  | .protoFn _ => true
  | .protoObj => true

/-! ## Field normalizer (`app.js` 37-41) -/

/-- The function `normalizeText(value, fallback)`. -/
def normalizeText (E : Engine) (value : JsVal) (fallback : Str) : Str :=
  if value = .null ∨ value = .undefined then fallback
  else
    let clean := trim (toStr E value)
    if clean.length ≠ 0 then clean else fallback

/-! ## Plain objects -/

/-- A plain object (`{}` or a parsed JSON object): its own properties, in creation
order.  Its prototype is `Object.prototype`. -/
abbrev Obj := List (Str × JsVal)

/-- The read `o[k]` on a plain object: the own property when there is one, else what
`Object.prototype` provides under that name, else `undefined`. -/
def getProp (o : Obj) (k : Str) : JsVal :=
  match o.lookup k with
  | some v => v
  | none =>
    if k = protoKey then .protoObj
    else if k ∈ objectPrototypeFunctions then .protoFn k
    else .undefined

/-- A record of the collection: a parsed JSON object whose values are primitives. -/
abbrev Card := Obj

/-! ## Set deriver (`app.js` 43-56) -/

/-- One position of an alternative of the catalogue pattern. -/
inductive Atom where
  /-- A literal of the pattern (an upper-case letter or a digit), matched under flag `i`. -/
  | lit (c : Char)
  /-- The class `\d`. -/
  | digit
  deriving DecidableEq, Repr

/-- Whether a pattern position accepts a character.  Under flag `i` without flag `u`
both sides are canonicalized with the simple upper-case mapping, and a non-ASCII
character is never canonicalized to an ASCII one: only the two ASCII cases of a
letter match it.  The class `\d` is `[0-9]`. -/
def Atom.accepts : Atom → Char → Bool
  | .lit p, c => c.toUpper == p
  | .digit, c => c.isDigit

/-- The alternative `XY\d{2}` for a sequence of literal characters followed by two digits. -/
def code2 (letters : String) : List Atom :=
  letters.toList.map Atom.lit ++ [Atom.digit, Atom.digit]

/-- The pattern
`/(BP\d{2}|SD\d{2}|PR|PP|SP\d{2}|PZ\d{2}|CP\d{2}|BPX\d{2}|BP0\d|EXD\d{2}|UD\d{2})/i`,
as the ordered list of its alternatives. -/
def patterns : List (List Atom) :=
  [code2 "BP", code2 "SD", "PR".toList.map Atom.lit, "PP".toList.map Atom.lit,
   code2 "SP", code2 "PZ", code2 "CP", code2 "BPX",
   "BP0".toList.map Atom.lit ++ [Atom.digit], code2 "EXD", code2 "UD"]

/-- Match one alternative at the start of a string; the matched text on success. -/
def matchSeq : List Atom → Str → Option Str
  | [], _ => some []
  | _ :: _, [] => none
  | a :: as, c :: cs => if a.accepts c then (matchSeq as cs).map (c :: ·) else none

/-- Match the alternation at the start of a string: the first alternative that
matches wins. -/
def matchAlts : List (List Atom) → Str → Option Str
  | [], _ => none
  | alt :: rest, s =>
    match matchSeq alt s with
    | some m => some m
    | none => matchAlts rest s

/-- The call `source.match(pattern)` for a non-global pattern whose whole body is
group 1: the text matched at the leftmost position where the alternation matches,
`none` for `null`. -/
def regexMatch (alts : List (List Atom)) : Str → Option Str
  | [] => matchAlts alts []
  | c :: cs =>
    match matchAlts alts (c :: cs) with
    | some m => some m
    | none => regexMatch alts cs

/-- The three candidate strings of `deriveSet`, in priority order. -/
def sources (E : Engine) (card : Card) : List Str :=
  [normalizeText E (getProp card "number".toList) [],
   normalizeText E (getProp card "section".toList) [],
   normalizeText E (getProp card "display_card_bundle_names".toList) []]

/-- The function `deriveSet(card)`. -/
def deriveSet (E : Engine) (card : Card) : Str :=
  match (sources E card).findSome? (regexMatch patterns) with
  | some m => E.toUpperCase m
  | none =>
    let fallback := normalizeText E (getProp card "section".toList) unknown
    if fallback = unknown then unknown else E.toUpperCase fallback

/-! ## Arithmetic and assignment on accumulator cells -/

/-- The expression `v || w`. -/
def jsOr (v w : JsVal) : JsVal :=
  if truthy v then v else w

/-- The expression `v + 1`: an object operand is first converted to its string
(`ToPrimitive`), a string operand makes the sum a concatenation, anything else is
converted to a number. -/
def jsAddOne (E : Engine) : JsVal → JsVal
  | .undefined => .nan
  | .null => .num 1
  | .bool b => .num (if b then 2 else 1)
  | .num n => .num (n + 1)
  | .nan => .nan
  | .str s => .str (s ++ ['1'])
  | .protoFn k => .str (E.nativeSource k ++ ['1'])
  | .protoObj => .str ("[object Object]".toList ++ ['1'])

/-- The assignment `o[k] = v` of a primitive `v` on a plain object: an own property
is overwritten; the name `__proto__` otherwise reaches the setter inherited from
`Object.prototype`, which ignores a value that is neither an object nor `null`;
any other name becomes a new own property, created last. -/
def setProp (o : Obj) (k : Str) (v : JsVal) : Obj :=
  if (o.lookup k).isSome then o.map (fun p => if p.1 = k then (k, v) else p)
  else if k = protoKey then o
  else o ++ [(k, v)]

/-- The statement `acc[bucket] = (acc[bucket] || 0) + 1`. -/
def bump (E : Engine) (acc : Obj) (bucket : Str) : Obj :=
  setProp acc bucket (jsAddOne E (jsOr (getProp acc bucket) (.num 0)))

/-! ## Aggregators (`app.js` 58-92) -/

/-- The function `aggregate(cards, key)`. -/
def aggregate (E : Engine) (cards : List Card) (key : Str) : Obj :=
  cards.foldl (fun acc card => bump E acc (normalizeText E (getProp card key) unknown)) []

/-- The function `aggregateFiltered(cards, key, { filterFn, skipUnknown, skipValues })`;
`filterFn` is `none` when the option is absent. -/
def aggregateFiltered (E : Engine) (cards : List Card) (key : Str)
    (filterFn : Option (Card → Bool)) (skipUnknown : Bool) (skipValues : List Str) : Obj :=
  cards.foldl (fun acc card =>
    if (match filterFn with | some f => !f card | none => false) then acc
    else
      let bucket := normalizeText E (getProp card key) unknown
      if skipUnknown && bucket == unknown then acc
      else if skipValues.contains bucket then acc
      else bump E acc bucket) []

/-- The function `aggregateBySet(cards)`. -/
def aggregateBySet (E : Engine) (cards : List Card) : Obj :=
  cards.foldl (fun acc card => bump E acc (deriveSet E card)) []

/-- The count stored in a cell, when the cell holds a non-negative number. -/
def JsVal.count? : JsVal → Option Nat
  | .num n => if 0 ≤ n then some n.toNat else none
  | _ => none

/-- The sum of the counts of a table, when every own cell holds a count. -/
def sumCounts? : Obj → Option Nat
  | [] => some 0
  | (_, v) :: t =>
    match v.count?, sumCounts? t with
    | some n, some m => some (n + m)
    | _, _ => none

/-! ## Distinct values (`new Set(..)`) and the option lists (`app.js` 115-131) -/

/-- The elements of `Array.from(new Set(xs))`: the distinct values, each at its
first occurrence. -/
def distinct (xs : List Str) : List Str :=
  xs.foldl (fun seen x => if x ∈ seen then seen else seen ++ [x]) []

/-- The UTF-16 code units of a string. -/
def utf16 (s : Str) : List Nat :=
  s.flatMap (fun c =>
    if c.toNat < 0x10000 then [c.toNat]
    else [0xD800 + (c.toNat - 0x10000) / 0x400, 0xDC00 + (c.toNat - 0x10000) % 0x400])

/-- The method `Array.prototype.sort()` without a comparator on an array of strings:
ascending by UTF-16 code units. -/
def sortStrings (xs : List Str) : List Str :=
  xs.insertionSort (fun a b => utf16 a ≤ utf16 b)

/-- The function `uniqueValues(cards, key)`. -/
def uniqueValues (E : Engine) (cards : List Card) (key : Str) : List Str :=
  sortStrings (distinct (cards.map (fun card => normalizeText E (getProp card key) unknown)))

/-- The function `uniqueSets(cards)`. -/
def uniqueSets (E : Engine) (cards : List Card) : List Str :=
  sortStrings (distinct (cards.map (fun card => deriveSet E card)))

/-! ## Ranking helper (`app.js` 294-298) -/

/-- The array index a property name denotes, if any: the canonical decimal numeral
of an integer below `2^32 - 1`. -/
def arrayIndex? (k : Str) : Option Nat :=
  if k.isEmpty || !k.all Char.isDigit || (decide (1 < k.length) && k.head? == some '0') then none
  else
    let n := k.foldl (fun acc c => 10 * acc + (c.toNat - 48)) 0
    if n < 4294967295 then some n else none

/-- The order of `Object.entries(o)`: the array-index names in ascending numeric
order, then the other names in creation order. -/
def objectEntries {α : Type} (o : List (Str × α)) : List (Str × α) :=
  (o.filter (fun p => (arrayIndex? p.1).isSome)).insertionSort
      (fun a b => (arrayIndex? a.1).getD 0 ≤ (arrayIndex? b.1).getD 0)
    ++ o.filter (fun p => (arrayIndex? p.1).isNone)

/-- An element `{ label, value }` of the sequence `sortCounts` returns. -/
structure Entry where
  label : Str
  value : Nat
  deriving DecidableEq, Repr

/-- The method `Array.prototype.sort(cmp)` for the comparator `(a, b) => b[1] - a[1]`
on pairs whose second component is a count: the sort is stable, and `a` is kept
before `b` unless `b[1] - a[1]` is positive. -/
def sortByCountDesc (xs : List (Str × Nat)) : List (Str × Nat) :=
  xs.insertionSort (fun a b => b.2 ≤ a.2)

/-- The function `sortCounts(counts)` on a frequency table (own properties in
creation order, every cell a count). -/
def sortCounts (counts : List (Str × Nat)) : List Entry :=
  (sortByCountDesc (objectEntries counts)).map (fun p => { label := p.1, value := p.2 })

/-! ## Cross-tabulation (`app.js` 300-319) -/

/-- The object `table` of `buildStackedData`: its own properties (each holding a
row object) and, once the statement `table["__proto__"] = {}` has run, the row
object that statement installed as the prototype of `table`. -/
structure Table where
  rows : List (Str × Obj)
  proto : Option Obj
  deriving Repr

/-- What the read `table[s]` yields. -/
inductive Slot where
  /-- The row object held by the own property `s`. -/
  | own (row : Obj)
  /-- The row object installed as prototype, read through the `__proto__` getter. -/
  | viaProto (row : Obj)
  /-- A value that is not a row: one inherited from the prototype chain, or `undefined`. -/
  | other (v : JsVal)
  deriving Repr

/-- The read `table[s]`. -/
def Table.read (t : Table) (s : Str) : Slot :=
  match t.rows.lookup s with
  | some row => .own row
  | none =>
    if s = protoKey then
      match t.proto with
      | some row => .viaProto row
      | none => .other .protoObj
    else
      match t.proto with
      | some row => .other (getProp row s)
      | none => .other (getProp [] s)

/-- Store a row object under `s`, as the assignment `table[s] = row` does: the name
`__proto__` reaches the inherited setter, which makes the object the prototype of
`table`; any other name becomes or overwrites an own property. -/
def Table.write (t : Table) (s : Str) (row : Obj) : Table :=
  if (t.rows.lookup s).isSome then
    { t with rows := t.rows.map (fun p => if p.1 = s then (s, row) else p) }
  else if s = protoKey then { t with proto := some row }
  else { t with rows := t.rows ++ [(s, row)] }

/-- The first loop of `buildStackedData` for one primary label:
`table[s] = {}; rarities.forEach((r) => (table[s][r] = 0))`.  Every read `table[s]`
of the inner loop yields the object the first statement stored (as an own property,
or as the prototype when `s` is `__proto__`), so the row is filled and stored. -/
def initRow (t : Table) (rarities : List Str) (s : Str) : Table :=
  t.write s (rarities.foldl (fun row r => setProp row r (.num 0)) [])

/-- Run the two statements `if (table[s][r] === undefined) table[s][r] = 0;
table[s][r] += 1;` on the row object `table[s]`. -/
def countInRow (E : Engine) (row : Obj) (r : Str) : Obj :=
  let row1 := if getProp row r = .undefined then setProp row r (.num 0) else row
  setProp row1 r (jsAddOne E (getProp row1 r))

/-- The body of the second loop of `buildStackedData` for a record with keys `s`
and `r`.  The result is `none` when `table[s]` reads a truthy value that is not a
row object (a built-in or a number inherited through the prototype chain): the
embedding does not follow the program there, and `buildStackedData_isSome`
shows no run reaches such a state. -/
def countCell (E : Engine) (t : Table) (s r : Str) : Option Table :=
  let t1 :=
    match t.read s with
    | .other v => if truthy v then t else t.write s []
    | _ => t
  match t1.read s with
  | .own row => some (t1.write s (countInRow E row r))
  | .viaProto row => some { t1 with proto := some (countInRow E row r) }
  | .other _ => none

/-- The value `buildStackedData` returns. -/
structure Stacked where
  labels : List Str
  series : List Str
  table : Table
  deriving Repr

/-- The function `buildStackedData(cards, primaryFn, secondaryFn)` for key functions
that return strings. -/
def buildStackedData (E : Engine) (cards : List Card) (primaryFn secondaryFn : Card → Str) :
    Option Stacked :=
  let sections := distinct (cards.map primaryFn)
  let rarities := distinct (cards.map secondaryFn)
  let table0 := sections.foldl (fun t s => initRow t rarities s) { rows := [], proto := none }
  (cards.foldlM (fun t card => countCell E t (primaryFn card) (secondaryFn card)) table0).map
    (fun table => { labels := sections, series := rarities, table := table })

/-- The read `table[p][r]` on the result, as `createStackedChart` performs it;
`none` when `table[p]` is not a row object. -/
def Table.cell (t : Table) (p r : Str) : Option JsVal :=
  match t.read p with
  | .own row => some (getProp row r)
  | .viaProto row => some (getProp row r)
  | .other _ => none

/-! ## Filter engine (`app.js` 439-461) -/

/-- The method `String.prototype.includes`. -/
def includes : Str → Str → Bool
  | [], needle => needle.isEmpty
  | c :: cs, needle => needle.isPrefixOf (c :: cs) || includes cs needle

/-- The four inputs of the filter: the `value` of the search box and of the three
select elements. -/
structure Criteria where
  search : Str
  rarity : Str
  feature : Str
  sectionValue : Str
  deriving Repr

/-- The callback of `state.cards.filter(..)` in `applyFilters`, for the lower-cased
trimmed search text `search`. -/
def matchesCard (E : Engine) (search rarity feature sectionValue : Str) (card : Card) : Bool :=
  let matchesSearch :=
    search.isEmpty ||
    includes (E.toLowerCase (normalizeText E (getProp card "name".toList) unknown)) search ||
    includes (E.toLowerCase (normalizeText E (getProp card "participating_works".toList) unknown))
      search
  let matchesRarity :=
    rarity.isEmpty || normalizeText E (getProp card "rarity".toList) unknown == rarity
  let matchesFeature :=
    feature.isEmpty || normalizeText E (getProp card "feature".toList) unknown == feature
  let matchesSection := sectionValue.isEmpty || deriveSet E card == sectionValue
  matchesSearch && matchesRarity && matchesFeature && matchesSection

/-- The subset `applyFilters` computes from `state.cards` and stores in `state.filtered`. -/
def applyFilters (E : Engine) (cards : List Card) (c : Criteria) : List Card :=
  let search := E.toLowerCase (trim c.search)
  cards.filter (matchesCard E search c.rarity c.feature c.sectionValue)

/-! ## Payload extraction (`app.js` 94-107) -/

/-- A parsed JSON payload. -/
inductive Json where
  | null
  | bool (b : Bool)
  | num (n : Int)
  | str (s : Str)
  | arr (items : List Json)
  | obj (props : List (Str × Json))
  deriving Repr

/-- JavaScript truthiness of a parsed JSON value. -/
def Json.truthy : Json → Bool
  | .null => false
  | .bool b => b
  | .num n => n != 0
  | .str s => !s.isEmpty
  | .arr _ => true
  | .obj _ => true

/-- The error a property read on `null` raises. -/
inductive JsError where
  | typeError
  deriving DecidableEq, Repr

/-- The expression `Array.isArray(payload) ? payload : payload.data || []`.
The read `payload.data` raises a `TypeError` on `null`, is `undefined` on the other
primitives and on an object without a `data` property. -/
def extractCards : Json → Except JsError Json
  | .arr items => .ok (.arr items)
  | .null => .error .typeError
  | .obj props =>
    match props.lookup "data".toList with
    | some v => .ok (if v.truthy then v else .arr [])
    | none => .ok (.arr [])
  | _ => .ok (.arr [])

/-- The two collections of `state`. -/
structure State where
  cards : Json
  filtered : Json
  deriving Repr

/-- The effect of `fetchCards` on `state.cards` and `state.filtered` once the
response is parsed: both are assigned the extracted value; an error raised before
the assignments is caught and logged, and leaves the state as it was. -/
def fetchCards (st : State) (payload : Json) : State :=
  match extractCards payload with
  | .ok cards => { cards := cards, filtered := cards }
  | .error _ => st

/-! ## The catalogue of set codes, as a language -/

/-- A string is a catalogue code: some alternative of the pattern accepts it,
character by character (letters in either case). -/
def IsCode (m : Str) : Prop :=
  ∃ alt ∈ patterns, List.Forall₂ (fun a c => a.accepts c = true) alt m

/-- The catalogue code `m` occurs in `s` at offset `i`. -/
def CodeAt (s : Str) (i : Nat) (m : Str) : Prop :=
  IsCode m ∧ ∃ pre post, s = pre ++ m ++ post ∧ pre.length = i

/-- The string contains a catalogue code, case-insensitively, anywhere. -/
def ContainsCode (s : Str) : Prop := ∃ i m, CodeAt s i m

/-- Whether some character is accepted by both pattern positions. -/
def Atom.compatible : Atom → Atom → Bool
  | .lit p, .lit q => p == q
  | .lit p, .digit => p.isDigit
  | .digit, .lit q => q.isDigit
  | .digit, .digit => true

/-- Whether a pattern position only accepts ASCII characters. -/
def Atom.ascii : Atom → Bool
  | .lit p => decide (p.toNat < 128)
  | .digit => true

/-! ## Records used as examples -/

/-- The record `{ number: "", section: "Promo", display_card_bundle_names: "" }`. -/
def promoRecord : Card :=
  [("number".toList, .str "".toList), ("section".toList, .str "Promo".toList),
   ("display_card_bundle_names".toList, .str "".toList)]

/-- The record `{ number: "", section: "Extra", display_card_bundle_names: "" }`. -/
def extraRecord : Card :=
  [("number".toList, .str "".toList), ("section".toList, .str "Extra".toList),
   ("display_card_bundle_names".toList, .str "".toList)]

/-- The record `{ number: "bp01-001", section: "", display_card_bundle_names: "" }`. -/
def bpRecord : Card :=
  [("number".toList, .str "bp01-001".toList), ("section".toList, .str "".toList),
   ("display_card_bundle_names".toList, .str "".toList)]

/-- The record
`{ number: "No. 7", section: "xx sd03 / bp02", display_card_bundle_names: "PR" }`. -/
def splitRecord : Card :=
  [("number".toList, .str "No. 7".toList), ("section".toList, .str "xx sd03 / bp02".toList),
   ("display_card_bundle_names".toList, .str "PR".toList)]

/-! ## Statements in the words of the specification, and example records -/

/-- The string `needle` occurs in `hay`. -/
def Occurs (needle hay : Str) : Prop := ∃ pre post, hay = pre ++ needle ++ post

/-- The filter predicate in the words of the specification: a record passes when all
four criteria hold, an empty criterion holding automatically. -/
def Passes (E : Engine) (c : Criteria) (card : Card) : Prop :=
  (E.toLowerCase (trim c.search) = [] ∨
    Occurs (E.toLowerCase (trim c.search))
      (E.toLowerCase (normalizeText E (getProp card "name".toList) unknown)) ∨
    Occurs (E.toLowerCase (trim c.search))
      (E.toLowerCase (normalizeText E (getProp card "participating_works".toList) unknown))) ∧
  (c.rarity = [] ∨ normalizeText E (getProp card "rarity".toList) unknown = c.rarity) ∧
  (c.feature = [] ∨ normalizeText E (getProp card "feature".toList) unknown = c.feature) ∧
  (c.sectionValue = [] ∨ deriveSet E card = c.sectionValue)

/-- The record `{ rarity: "R", feature: "Kaiju", name: "A" }`. -/
def recordA : Card :=
  [("rarity".toList, .str "R".toList), ("feature".toList, .str "Kaiju".toList),
   ("name".toList, .str "A".toList)]

/-- The record `{ rarity: "R", feature: "Ultra Hero", name: "B" }`. -/
def recordB : Card :=
  [("rarity".toList, .str "R".toList), ("feature".toList, .str "Ultra Hero".toList),
   ("name".toList, .str "B".toList)]

/-- The record `{ rarity: "SR", feature: "Kaiju", name: "C" }`. -/
def recordC : Card :=
  [("rarity".toList, .str "SR".toList), ("feature".toList, .str "Kaiju".toList),
   ("name".toList, .str "C".toList)]

/-- The record `{ name: "Kaiju King", participating_works: "-" }`. -/
def kingRecord : Card :=
  [("name".toList, .str "Kaiju King".toList), ("participating_works".toList, .str "-".toList)]

/-- The record `{ name: "Gomora", participating_works: "-", feature: "Kaiju" }`. -/
def gomoraRecord : Card :=
  [("name".toList, .str "Gomora".toList), ("participating_works".toList, .str "-".toList),
   ("feature".toList, .str "Kaiju".toList)]

/-- The property names a plain object inherits from `Object.prototype`. -/
def reservedKeys : List Str := protoKey :: objectPrototypeFunctions

/-- The frequency table of a list of bucket keys, in the words of the specification:
one cell per distinct key, in order of first occurrence, holding the number of
occurrences of the key. -/
def frequencies (keys : List Str) : Obj :=
  (distinct keys).map (fun k => (k, JsVal.num (keys.count k)))

/-- The bucket key of a record for a field: `normalizeText(card[key])`. -/
def bucketOf (E : Engine) (key : Str) (card : Card) : Str :=
  normalizeText E (getProp card key) unknown

/-- Whether `aggregateFiltered` counts a record: it passes `filterFn` when one is
given, its bucket is not `"Unknown"` while `skipUnknown` is set, and its bucket is
not a member of `skipValues`. -/
def isCounted (E : Engine) (key : Str) (filterFn : Option (Card → Bool)) (skipUnknown : Bool)
    (skipValues : List Str) (card : Card) : Bool :=
  (match filterFn with | some f => f card | none => true) &&
  !(skipUnknown && bucketOf E key card == unknown) &&
  !(skipValues.contains (bucketOf E key card))

/-- The record `{ rarity: "__proto__" }`. -/
def protoRarityRecord : Card := [("rarity".toList, .str "__proto__".toList)]

/-- The record `{ rarity: "constructor" }`. -/
def constructorRarityRecord : Card := [("rarity".toList, .str "constructor".toList)]

/-- The row object the read `table[s]` yields, if it yields one. -/
def Table.rowOf (t : Table) (s : Str) : Option Obj :=
  match t.read s with
  | .own row => some row
  | .viaProto row => some row
  | .other _ => none

/-- The row `{}` after `rarities.forEach((r) => (row[r] = 0))`. -/
def zeroRow (rarities : List Str) : Obj :=
  rarities.foldl (fun row r => setProp row r (.num 0)) []

/-- The number of records with primary key `p` and secondary key `r`. -/
def pairCount (primaryFn secondaryFn : Card → Str) (cards : List Card) (p r : Str) : Nat :=
  (cards.filter (fun c => primaryFn c == p && secondaryFn c == r)).length

/-- Every primary label reads a row object of `table`, whose cell for each secondary
label holds the number of records counted so far with that pair of keys. -/
def Tallied (primaryFn secondaryFn : Card → Str) (sections rarities : List Str) (t : Table)
    (done : List Card) : Prop :=
  ∀ p ∈ sections, ∃ row, t.rowOf p = some row ∧
    ∀ r ∈ rarities, getProp row r = .num (pairCount primaryFn secondaryFn done p r)

/-- The predicate `(c) => normalizeText(c.feature) === "Kaiju"` of `drawCharts`. -/
def isKaiju (E : Engine) (card : Card) : Bool :=
  bucketOf E "feature".toList card == "Kaiju".toList

/-- A state holding a loaded collection of two records. -/
def loadedState : State :=
  { cards := .arr [.obj [("name".toList, .str "A".toList)], .obj []],
    filtered := .arr [.obj []] }

/-! ## The laws of the host are consistent -/

/-- The ASCII upper-case conversion never yields an ASCII lower-case letter. -/
theorem toUpper_not_lower (c : Char) : c.toUpper.isLower = false := by
  by_cases h : c.toNat ≥ 97 ∧ c.toNat ≤ 122
  · have hc : c = Char.ofNat c.toNat := (Char.ofNat_toNat c).symm
    obtain ⟨h1, h2⟩ := h
    generalize c.toNat = n at hc h1 h2
    subst hc
    interval_cases n <;> rfl
  · have : c.toUpper = c := by simp only [Char.toUpper]; rw [if_neg h]
    rw [this]
    simp only [Char.isLower, Bool.and_eq_false_imp, decide_eq_true_eq, decide_eq_false_iff_not]
    intro h1 h2
    apply h
    simp only [Char.toNat]
    exact ⟨h1, h2⟩

/-- A host restricted to ASCII case conversion: it satisfies every law of `Engine`, so
the laws are consistent, and it serves to evaluate the program on ASCII inputs. -/
def asciiEngine : Engine where
  upperOf c := [c.toUpper]
  lowerCase s := s.map Char.toLower
  nativeSource k := "function ".toList ++ k ++ "() { [native code] }".toList
  upperOf_ascii := fun _ _ => rfl
  upperOf_ne_nil := by simp
  upperOf_caps := by
    intro c d h
    simp only [List.mem_singleton] at h
    subst h
    exact toUpper_not_lower c
  lowerCase_ascii := fun _ _ => rfl

/-! ## White space -/

/-- The result of `trim` is the input without a prefix and a suffix made of white space. -/
theorem trim_decomp (s : Str) :
    ∃ pre post, s = pre ++ trim s ++ post ∧ (∀ c ∈ pre, isJsSpace c = true) ∧
      (∀ c ∈ post, isJsSpace c = true) := by
  refine ⟨s.takeWhile isJsSpace, (((s.dropWhile isJsSpace).reverse).takeWhile isJsSpace).reverse,
    ?_, ?_, ?_⟩
  · have h1 := (List.takeWhile_append_dropWhile isJsSpace s).symm
    have h2 := (List.takeWhile_append_dropWhile isJsSpace (s.dropWhile isJsSpace).reverse).symm
    have h3 : s.dropWhile isJsSpace =
        trim s ++ (((s.dropWhile isJsSpace).reverse).takeWhile isJsSpace).reverse := by
      have := congrArg List.reverse h2
      rw [List.reverse_reverse, List.reverse_append] at this
      exact this
    rw [List.append_assoc, ← h3]
    exact h1
  · intro c hc
    exact List.mem_takeWhile_imp hc
  · intro c hc
    exact List.mem_takeWhile_imp (List.mem_reverse.mp hc)

/-- The result of `trim` does not start with white space. -/
theorem trim_head_not_space (s : Str) (c : Char) (h : (trim s).head? = some c) :
    isJsSpace c = false := by
  have hpre : trim s <+: s.dropWhile isJsSpace := List.rdropWhile_prefix isJsSpace (s.dropWhile isJsSpace)
  obtain ⟨t, ht⟩ := hpre
  cases hts : trim s with
  | nil => rw [hts] at h; simp at h
  | cons a l =>
    rw [hts] at h ht
    simp only [List.head?_cons, Option.some.injEq] at h
    subst h
    have hne : s.dropWhile isJsSpace ≠ [] := by rw [← ht]; simp
    have := List.head_dropWhile_not isJsSpace s hne
    simp only [← ht, List.cons_append, List.head_cons] at this
    simpa using this

/-- The result of `trim` does not end with white space. -/
theorem trim_last_not_space (s : Str) (c : Char) (h : (trim s).getLast? = some c) :
    isJsSpace c = false := by
  have hne : (s.dropWhile isJsSpace).rdropWhile isJsSpace ≠ [] := by
    intro h0
    have : trim s = [] := h0
    rw [this] at h; simp at h
  have h1 := List.rdropWhile_last_not isJsSpace (s.dropWhile isJsSpace) hne
  have h2 : (trim s).getLast? = some (((s.dropWhile isJsSpace).rdropWhile isJsSpace).getLast hne) :=
    List.getLast?_eq_getLast _ hne
  rw [h2] at h
  simp only [Option.some.injEq] at h
  subst h
  simpa using h1

/-! ## Field normalizer: properties -/

/-- C1. `normalizeText(v, f)` is `f` when `v` is `null` or `undefined` or when
`String(v)` trims to the empty string, and is otherwise exactly the trimmed string:
`String(v)` without its leading and trailing white space, every other character kept
as it is.  With the default fallback, `null`, `undefined`, `""` and `"   "` give
`"Unknown"` and `"  Foo  "` gives `"Foo"`. -/
theorem normalizeText_contract (E : Engine) (v : JsVal) (f : Str) :
    ((v = .null ∨ v = .undefined) → normalizeText E v f = f) ∧
    (v ≠ .null → v ≠ .undefined → trim (toStr E v) = [] → normalizeText E v f = f) ∧
    (v ≠ .null → v ≠ .undefined → trim (toStr E v) ≠ [] →
      normalizeText E v f = trim (toStr E v)) ∧
    (∃ pre post, toStr E v = pre ++ trim (toStr E v) ++ post ∧
      (∀ c ∈ pre, isJsSpace c = true) ∧ (∀ c ∈ post, isJsSpace c = true)) ∧
    (∀ c, (trim (toStr E v)).head? = some c → isJsSpace c = false) ∧
    (∀ c, (trim (toStr E v)).getLast? = some c → isJsSpace c = false) ∧
    normalizeText E .null unknown = "Unknown".toList ∧
    normalizeText E .undefined unknown = "Unknown".toList ∧
    normalizeText E (.str "".toList) unknown = "Unknown".toList ∧
    normalizeText E (.str "   ".toList) unknown = "Unknown".toList ∧
    normalizeText E (.str "  Foo  ".toList) unknown = "Foo".toList := by
  refine ⟨?_, ?_, ?_, trim_decomp _, trim_head_not_space _, trim_last_not_space _,
    rfl, rfl, rfl, rfl, rfl⟩
  · intro h
    simp [normalizeText, h]
  · intro h1 h2 h3
    simp [normalizeText, h1, h2, h3]
  · intro h1 h2 h3
    simp [normalizeText, h1, h2, h3]

/-! ## The catalogue pattern: the matcher against the language -/

/-- A digit is its own ASCII upper case. -/
theorem toUpper_of_isDigit (c : Char) (h : c.isDigit = true) : c.toUpper = c := by
  have h1 : c.toNat ≤ 57 := by
    simp only [Char.isDigit, Bool.and_eq_true, decide_eq_true_eq] at h
    exact h.2
  simp only [Char.toUpper]
  rw [if_neg]
  omega

/-- Two pattern positions that accept the same character are compatible. -/
theorem accepts_compatible (a b : Atom) (c : Char) (ha : a.accepts c = true)
    (hb : b.accepts c = true) : a.compatible b = true := by
  cases a <;> cases b <;> simp only [Atom.accepts, Atom.compatible, beq_iff_eq] at *
  · rw [← ha, ← hb]
  · rw [← ha, toUpper_of_isDigit c hb]; exact hb
  · rw [← hb, toUpper_of_isDigit c ha]; exact ha

/-- An alternative matches at the start of `s` with text `m` exactly when it accepts `m`
character by character and `m` is a leading part of `s`. -/
theorem matchSeq_eq_some (alt : List Atom) (s m : Str) :
    matchSeq alt s = some m ↔
      List.Forall₂ (fun a c => a.accepts c = true) alt m ∧ ∃ t, s = m ++ t := by
  induction alt generalizing s m with
  | nil =>
    simp only [matchSeq, Option.some.injEq, List.forall₂_nil_left_iff]
    constructor
    · intro h; subst h; exact ⟨rfl, s, rfl⟩
    · intro h; exact h.1.symm
  | cons a as ih =>
    cases s with
    | nil =>
      simp only [matchSeq]
      constructor
      · intro h; cases h
      · rintro ⟨h, t, ht⟩
        cases h
        simp at ht
    | cons c cs =>
      simp only [matchSeq]
      by_cases hac : a.accepts c = true
      · simp only [hac, if_true, Option.map_eq_some']
        constructor
        · rintro ⟨m', hm', rfl⟩
          obtain ⟨h1, t, ht⟩ := (ih cs m').1 hm'
          exact ⟨List.Forall₂.cons hac h1, t, by rw [ht]; rfl⟩
        · rintro ⟨h, t, ht⟩
          cases h with
          | cons h1 h2 =>
            rename_i c' m'
            simp only [List.cons_append, List.cons.injEq] at ht
            obtain ⟨rfl, ht⟩ := ht
            exact ⟨m', (ih cs m').2 ⟨h2, t, ht⟩, rfl⟩
      · simp only [hac, Bool.false_eq_true, if_false]
        constructor
        · intro h; cases h
        · rintro ⟨h, t, ht⟩
          cases h with
          | cons h1 h2 =>
            simp only [List.cons_append, List.cons.injEq] at ht
            obtain ⟨rfl, _⟩ := ht
            exact absurd h1 hac

/-- Two alternatives that accept leading parts of the same string are compatible position
by position. -/
theorem zip_compatible (alt alt' : List Atom) (m m' t t' : Str)
    (h : List.Forall₂ (fun a c => a.accepts c = true) alt m)
    (h' : List.Forall₂ (fun a c => a.accepts c = true) alt' m')
    (e : m ++ t = m' ++ t') :
    (alt.zip alt').all (fun p => p.1.compatible p.2) = true := by
  induction h generalizing alt' m' with
  | nil => simp
  | cons hac _ ih =>
    cases h' with
    | nil => simp
    | cons hac' h2 =>
      simp only [List.cons_append, List.cons.injEq] at e
      obtain ⟨rfl, e⟩ := e
      simp only [List.zip_cons_cons, List.all_cons, Bool.and_eq_true]
      exact ⟨accepts_compatible _ _ _ hac hac', ih _ _ h2 e⟩

/-- Two alternatives of the catalogue that are compatible position by position have the
same length. -/
theorem patterns_compatible_length :
    ∀ alt ∈ patterns, ∀ alt' ∈ patterns,
      (alt.zip alt').all (fun p => p.1.compatible p.2) = true → alt.length = alt'.length := by
  decide

/-- At a given offset of a string at most one catalogue code occurs. -/
theorem isCode_unique (m m' t t' : Str) (h : IsCode m) (h' : IsCode m')
    (e : m ++ t = m' ++ t') : m = m' := by
  obtain ⟨alt, halt, hm⟩ := h
  obtain ⟨alt', halt', hm'⟩ := h'
  have hlen := patterns_compatible_length alt halt alt' halt' (zip_compatible _ _ _ _ _ _ hm hm' e)
  have h1 := hm.length_eq
  have h2 := hm'.length_eq
  exact (List.append_inj e (by omega)).1

/-- A successful alternation is the success of one of its alternatives. -/
theorem matchAlts_eq_some_sound (alts : List (List Atom)) (s m : Str)
    (h : matchAlts alts s = some m) : ∃ alt ∈ alts, matchSeq alt s = some m := by
  induction alts with
  | nil => simp [matchAlts] at h
  | cons alt rest ih =>
    simp only [matchAlts] at h
    cases hm : matchSeq alt s with
    | some m0 =>
      rw [hm] at h
      simp only [Option.some.injEq] at h
      subst h
      exact ⟨alt, List.mem_cons_self _ _, hm⟩
    | none =>
      rw [hm] at h
      obtain ⟨a, ha, h2⟩ := ih h
      exact ⟨a, List.mem_cons_of_mem _ ha, h2⟩

/-- The alternation fails exactly when every alternative fails. -/
theorem matchAlts_eq_none (alts : List (List Atom)) (s : Str) :
    matchAlts alts s = none ↔ ∀ alt ∈ alts, matchSeq alt s = none := by
  induction alts with
  | nil => simp [matchAlts]
  | cons alt rest ih =>
    simp only [matchAlts, List.mem_cons, forall_eq_or_imp]
    cases hm : matchSeq alt s with
    | some m0 => simp
    | none => simpa using ih

/-- The alternation of the catalogue matches at the start of `s` with text `m` exactly when
`m` is a catalogue code and a leading part of `s`. -/
theorem matchAlts_patterns (s m : Str) :
    matchAlts patterns s = some m ↔ IsCode m ∧ ∃ t, s = m ++ t := by
  constructor
  · intro h
    obtain ⟨alt, halt, hm⟩ := matchAlts_eq_some_sound _ _ _ h
    obtain ⟨h1, h2⟩ := (matchSeq_eq_some _ _ _).1 hm
    exact ⟨⟨alt, halt, h1⟩, h2⟩
  · rintro ⟨hc, t, ht⟩
    obtain ⟨alt, halt, hm⟩ := hc
    have h1 : matchSeq alt s = some m := (matchSeq_eq_some _ _ _).2 ⟨hm, t, ht⟩
    cases h0 : matchAlts patterns s with
    | none =>
      have := (matchAlts_eq_none _ _).1 h0 alt halt
      rw [h1] at this
      cases this
    | some m0 =>
      obtain ⟨alt0, halt0, hm0⟩ := matchAlts_eq_some_sound _ _ _ h0
      obtain ⟨h2, t0, ht0⟩ := (matchSeq_eq_some _ _ _).1 hm0
      have : m0 = m := isCode_unique m0 m t0 t ⟨alt0, halt0, h2⟩ ⟨alt, halt, hm⟩ (by rw [← ht0, ← ht])
      rw [this]

/-- A successful search returns a catalogue code that occurs in the string, at the least
offset at which any catalogue code occurs. -/
theorem regexMatch_eq_some (s m : Str) (h : regexMatch patterns s = some m) :
    ∃ pre post, s = pre ++ m ++ post ∧ IsCode m ∧
      ∀ i m', CodeAt s i m' → pre.length ≤ i := by
  induction s with
  | nil =>
    simp only [regexMatch] at h
    obtain ⟨hc, t, ht⟩ := (matchAlts_patterns _ _).1 h
    exact ⟨[], t, by simpa using ht, hc, fun _ _ _ => Nat.zero_le _⟩
  | cons c cs ih =>
    simp only [regexMatch] at h
    cases h0 : matchAlts patterns (c :: cs) with
    | some m0 =>
      rw [h0] at h
      simp only [Option.some.injEq] at h
      subst h
      obtain ⟨hc, t, ht⟩ := (matchAlts_patterns _ _).1 h0
      exact ⟨[], t, by simpa using ht, hc, fun _ _ _ => Nat.zero_le _⟩
    | none =>
      rw [h0] at h
      obtain ⟨pre, post, e, hc, hmin⟩ := ih h
      refine ⟨c :: pre, post, by rw [e]; rfl, hc, ?_⟩
      rintro i m' ⟨hc', pre', post', e', hlen⟩
      cases pre' with
      | nil =>
        have : matchAlts patterns (c :: cs) = some m' :=
          (matchAlts_patterns _ _).2 ⟨hc', post', by simpa using e'⟩
        rw [h0] at this
        cases this
      | cons c' pre'' =>
        simp only [List.cons_append, List.cons.injEq] at e'
        have := hmin pre''.length m' ⟨hc', pre'', post', e'.2, rfl⟩
        simp only [List.length_cons] at hlen ⊢
        omega

/-- A failed search means the string contains no catalogue code. -/
theorem regexMatch_eq_none (s : Str) (h : regexMatch patterns s = none) : ¬ ContainsCode s := by
  induction s with
  | nil =>
    simp only [regexMatch] at h
    rintro ⟨i, m, hc, pre, post, e, _⟩
    have hpre : pre = [] := by
      cases pre with
      | nil => rfl
      | cons _ _ => simp at e
    subst hpre
    have : matchAlts patterns [] = some m := (matchAlts_patterns _ _).2 ⟨hc, post, by simpa using e⟩
    rw [h] at this
    cases this
  | cons c cs ih =>
    simp only [regexMatch] at h
    cases h0 : matchAlts patterns (c :: cs) with
    | some m0 => rw [h0] at h; cases h
    | none =>
      rw [h0] at h
      rintro ⟨i, m, hc, pre, post, e, _⟩
      cases pre with
      | nil =>
        have : matchAlts patterns (c :: cs) = some m :=
          (matchAlts_patterns _ _).2 ⟨hc, post, by simpa using e⟩
        rw [h0] at this
        cases this
      | cons c' pre' =>
        simp only [List.cons_append, List.cons.injEq] at e
        exact ih h ⟨pre'.length, m, hc, pre', post, e.2, rfl⟩

/-- The search returns `m` exactly when `m` is the catalogue code at the least offset at
which one occurs. -/
theorem regexMatch_eq_some_iff (s m : Str) :
    regexMatch patterns s = some m ↔
      ∃ i, CodeAt s i m ∧ ∀ j m', CodeAt s j m' → i ≤ j := by
  constructor
  · intro h
    obtain ⟨pre, post, e, hc, hmin⟩ := regexMatch_eq_some s m h
    exact ⟨pre.length, ⟨hc, pre, post, e, rfl⟩, hmin⟩
  · rintro ⟨i, hat, hmin⟩
    cases h0 : regexMatch patterns s with
    | none => exact absurd ⟨i, m, hat⟩ (regexMatch_eq_none s h0)
    | some m0 =>
      obtain ⟨pre0, post0, e0, hc0, hmin0⟩ := regexMatch_eq_some s m0 h0
      obtain ⟨hc, pre, post, e, hlen⟩ := hat
      have h1 : pre0.length ≤ i := hmin0 i m ⟨hc, pre, post, e, hlen⟩
      have h2 : i ≤ pre0.length := hmin pre0.length m0 ⟨hc0, pre0, post0, e0, rfl⟩
      have hl : pre0.length = pre.length := by omega
      have e1 : pre0 ++ (m0 ++ post0) = pre ++ (m ++ post) := by
        rw [← List.append_assoc, ← List.append_assoc, ← e0, ← e]
      have := (List.append_inj e1 hl).2
      rw [isCode_unique m0 m post0 post hc0 hc this]

/-- The search fails exactly when the string contains no catalogue code. -/
theorem regexMatch_eq_none_iff (s : Str) : regexMatch patterns s = none ↔ ¬ ContainsCode s := by
  constructor
  · exact regexMatch_eq_none s
  · intro h
    cases h0 : regexMatch patterns s with
    | none => rfl
    | some m =>
      obtain ⟨pre, post, e, hc, _⟩ := regexMatch_eq_some s m h0
      exact absurd ⟨pre.length, m, hc, pre, post, e, rfl⟩ h

/-! ## Set deriver: properties -/

/-- On an ASCII string `toUpperCase` is the ASCII conversion. -/
theorem toUpperCase_ascii (E : Engine) (s : Str) (h : ∀ c ∈ s, c.toNat < 128) :
    E.toUpperCase s = s.map Char.toUpper := by
  induction s with
  | nil => rfl
  | cons c cs ih =>
    have h1 := E.upperOf_ascii c (h c (List.mem_cons_self _ _))
    have h2 := ih (fun d hd => h d (List.mem_cons_of_mem _ hd))
    simp only [Engine.toUpperCase, List.flatMap_cons, List.map_cons] at h2 ⊢
    rw [h1, h2]
    rfl

/-- A character whose ASCII upper case is ASCII is ASCII. -/
theorem toNat_lt_of_toUpper (c : Char) (h : c.toUpper.toNat < 128) : c.toNat < 128 := by
  by_cases hr : c.toNat ≥ 97 ∧ c.toNat ≤ 122
  · omega
  · have : c.toUpper = c := by simp only [Char.toUpper]; rw [if_neg hr]
    rw [this] at h
    exact h

/-- Every position of the catalogue pattern only accepts ASCII characters. -/
theorem patterns_lit_ascii : ∀ alt ∈ patterns, ∀ a ∈ alt, a.ascii = true := by
  decide

/-- A character accepted by a position of the catalogue pattern is ASCII. -/
theorem accepts_ascii (alt : List Atom) (halt : alt ∈ patterns) (a : Atom) (ha : a ∈ alt)
    (c : Char) (h : a.accepts c = true) : c.toNat < 128 := by
  have hp := patterns_lit_ascii alt halt a ha
  cases a with
  | lit p =>
    simp only [Atom.accepts, beq_iff_eq] at h
    simp only [Atom.ascii, decide_eq_true_eq] at hp
    apply toNat_lt_of_toUpper
    rw [h]
    exact hp
  | digit =>
    simp only [Atom.accepts, Char.isDigit, Bool.and_eq_true, decide_eq_true_eq] at h
    have := h.2
    simp only [Char.toNat]
    exact Nat.lt_of_le_of_lt (UInt32.le_def.1 this) (by decide)

/-- A catalogue code is an ASCII string. -/
theorem isCode_ascii (m : Str) (h : IsCode m) : ∀ c ∈ m, c.toNat < 128 := by
  obtain ⟨alt, halt, hm⟩ := h
  intro c hc
  obtain ⟨a, ha, hac⟩ : ∃ a ∈ alt, a.accepts c = true := by
    clear halt
    induction hm with
    | nil => simp at hc
    | @cons a c' as cs h1 _ ih =>
      rcases List.mem_cons.1 hc with rfl | hc'
      · exact ⟨a, List.mem_cons_self _ _, h1⟩
      · obtain ⟨b, hb, hbc⟩ := ih hc'
        exact ⟨b, List.mem_cons_of_mem _ hb, hbc⟩
  exact accepts_ascii alt halt a ha c hac

/-- A catalogue code is not empty. -/
theorem isCode_ne_nil (m : Str) (h : IsCode m) : m ≠ [] := by
  obtain ⟨alt, halt, hm⟩ := h
  intro h0
  subst h0
  have : alt = [] := by cases hm; rfl
  subst this
  revert halt
  decide

/-- When the search succeeds on some candidate, `deriveSet` is the upper-cased match. -/
theorem deriveSet_of_match (E : Engine) (card : Card) (m : Str)
    (h : (sources E card).findSome? (regexMatch patterns) = some m) :
    deriveSet E card = E.toUpperCase m := by
  simp only [deriveSet, h]

/-- When the search fails on every candidate, `deriveSet` falls back to the section. -/
theorem deriveSet_of_no_match (E : Engine) (card : Card)
    (h : (sources E card).findSome? (regexMatch patterns) = none) :
    deriveSet E card =
      if normalizeText E (getProp card "section".toList) unknown = unknown then unknown
      else E.toUpperCase (normalizeText E (getProp card "section".toList) unknown) := by
  simp only [deriveSet, h]

/-- The derived set of the `Promo` record is `PR`, in every host. -/
theorem deriveSet_promo (E : Engine) : deriveSet E promoRecord = "PR".toList := by
  have h : (sources E promoRecord).findSome? (regexMatch patterns) = some "Pr".toList := by rfl
  rw [deriveSet_of_match E _ _ h, toUpperCase_ascii E _ (by decide)]
  rfl

/-- A string on which the search succeeds contains a catalogue code. -/
theorem containsCode_of_regexMatch (s m : Str) (h : regexMatch patterns s = some m) :
    ContainsCode s := by
  obtain ⟨pre, post, e, hc, _⟩ := regexMatch_eq_some s m h
  exact ⟨pre.length, m, hc, pre, post, e, rfl⟩

/-- C2, counterexample.  For the record
`{ number: "", section: "Promo", display_card_bundle_names: "" }` no host makes
`deriveSet` return `"PROMO"`: it returns `"PR"`. -/
theorem deriveSet_promo_is_not_PROMO :
    ¬ ∃ E : Engine, deriveSet E promoRecord = "PROMO".toList := by
  rintro ⟨E, h⟩
  rw [deriveSet_promo] at h
  exact absurd h (by decide)

/-- C2, amended.  When no candidate field contains a catalogue code, `deriveSet`
returns the section normalized with fallback `"Unknown"`, upper-cased, or `"Unknown"`
verbatim when that normalized value is `"Unknown"`.  The section `"Promo"` is not
such a case: it contains the code `PR` (its first two letters), and the record
`{ number: "", section: "Promo", display_card_bundle_names: "" }` derives `"PR"`. -/
theorem deriveSet_fallback (E : Engine) (card : Card) :
    ((∀ s ∈ sources E card, ¬ ContainsCode s) →
      deriveSet E card =
        if normalizeText E (getProp card "section".toList) unknown = unknown then unknown
        else E.toUpperCase (normalizeText E (getProp card "section".toList) unknown)) ∧
    ContainsCode "Promo".toList ∧
    sources E promoRecord = ["".toList, "Promo".toList, "".toList] ∧
    deriveSet E promoRecord = "PR".toList := by
  refine ⟨?_, containsCode_of_regexMatch _ "Pr".toList (by decide), rfl, deriveSet_promo E⟩
  intro h
  apply deriveSet_of_no_match
  rw [List.findSome?_eq_none_iff]
  intro s hs
  exact (regexMatch_eq_none_iff s).2 (h s hs)

/-- C2, witness: the record with section `"Extra"` has no catalogue code in any
candidate and derives `"EXTRA"`. -/
theorem deriveSet_fallback_witness :
    (∀ s ∈ sources asciiEngine extraRecord, ¬ ContainsCode s) ∧
    deriveSet asciiEngine extraRecord = "EXTRA".toList := by
  have h : ∀ s ∈ sources asciiEngine extraRecord, ¬ ContainsCode s := by
    intro s hs
    rw [← regexMatch_eq_none_iff]
    revert s hs
    decide
  refine ⟨h, ?_⟩
  rw [(deriveSet_fallback asciiEngine extraRecord).1 h]
  decide

/-- C3.  The candidates are the normalized `number`, `section` and
`display_card_bundle_names` (fallback `""`), in that order.  If a candidate contains
a catalogue code and no earlier candidate does, `deriveSet` returns the upper-cased
code found at the least offset of that candidate, whatever the later candidates
hold; and as soon as some candidate contains a catalogue code there is such an
earliest candidate and first match.  The record
`{ number: "bp01-001", section: "", display_card_bundle_names: "" }` derives `"BP01"`. -/
theorem deriveSet_first_match (E : Engine) (card : Card) :
    sources E card =
      [normalizeText E (getProp card "number".toList) [],
       normalizeText E (getProp card "section".toList) [],
       normalizeText E (getProp card "display_card_bundle_names".toList) []] ∧
    (∀ (before : List Str) (cand : Str) (after : List Str) (i : Nat) (m : Str),
      sources E card = before ++ cand :: after →
      (∀ s ∈ before, ¬ ContainsCode s) →
      CodeAt cand i m → (∀ j m', CodeAt cand j m' → i ≤ j) →
      deriveSet E card = E.toUpperCase m ∧ E.toUpperCase m = m.map Char.toUpper) ∧
    ((∃ s ∈ sources E card, ContainsCode s) →
      ∃ (before : List Str) (cand : Str) (after : List Str) (i : Nat) (m : Str),
        sources E card = before ++ cand :: after ∧
        (∀ s ∈ before, ¬ ContainsCode s) ∧
        CodeAt cand i m ∧ (∀ j m', CodeAt cand j m' → i ≤ j) ∧
        deriveSet E card = m.map Char.toUpper) ∧
    deriveSet E bpRecord = "BP01".toList := by
  have key : ∀ (before : List Str) (cand : Str) (after : List Str) (i : Nat) (m : Str),
      sources E card = before ++ cand :: after →
      (∀ s ∈ before, ¬ ContainsCode s) →
      CodeAt cand i m → (∀ j m', CodeAt cand j m' → i ≤ j) →
      deriveSet E card = E.toUpperCase m ∧ E.toUpperCase m = m.map Char.toUpper := by
    intro before cand after i m hsrc hbefore hat hmin
    refine ⟨?_, toUpperCase_ascii E m (isCode_ascii m hat.1)⟩
    apply deriveSet_of_match
    rw [List.findSome?_eq_some_iff]
    exact ⟨before, cand, after, hsrc, (regexMatch_eq_some_iff cand m).2 ⟨i, hat, hmin⟩,
      fun s hs => (regexMatch_eq_none_iff s).2 (hbefore s hs)⟩
  refine ⟨rfl, key, ?_, ?_⟩
  · rintro ⟨s, hs, hcs⟩
    cases hf : (sources E card).findSome? (regexMatch patterns) with
    | none =>
      rw [List.findSome?_eq_none_iff] at hf
      exact absurd hcs ((regexMatch_eq_none_iff s).1 (hf s hs))
    | some m =>
      obtain ⟨before, cand, after, hsrc, hm, hbefore⟩ := List.findSome?_eq_some_iff.1 hf
      obtain ⟨i, hat, hmin⟩ := (regexMatch_eq_some_iff cand m).1 hm
      have hb : ∀ s ∈ before, ¬ ContainsCode s :=
        fun s hs => (regexMatch_eq_none_iff s).1 (hbefore s hs)
      obtain ⟨h1, h2⟩ := key before cand after i m hsrc hb hat hmin
      exact ⟨before, cand, after, i, m, hsrc, hb, hat, hmin, h1.trans h2⟩
  · have h : (sources E bpRecord).findSome? (regexMatch patterns) = some "bp01".toList := by rfl
    rw [deriveSet_of_match E _ _ h, toUpperCase_ascii E _ (by decide)]
    rfl

/-- C3, witness: in `{ number: "No. 7", section: "xx sd03 / bp02",
display_card_bundle_names: "PR" }` the first candidate holds no code, the second
holds `sd03` at offset 3 and `bp02` later, the third is itself a code: the derived
set is `"SD03"`. -/
theorem deriveSet_first_match_witness :
    sources asciiEngine splitRecord = ["No. 7".toList] ++ "xx sd03 / bp02".toList :: ["PR".toList] ∧
    (∀ s ∈ ["No. 7".toList], ¬ ContainsCode s) ∧
    CodeAt "xx sd03 / bp02".toList 3 "sd03".toList ∧
    (∀ j m', CodeAt "xx sd03 / bp02".toList j m' → 3 ≤ j) ∧
    deriveSet asciiEngine splitRecord = "SD03".toList := by
  have hm : regexMatch patterns "xx sd03 / bp02".toList = some "sd03".toList := by decide
  obtain ⟨i, hat, hmin⟩ := (regexMatch_eq_some_iff _ _).1 hm
  have hi : i = 3 := by
    have h3 : CodeAt "xx sd03 / bp02".toList 3 "sd03".toList :=
      ⟨((matchAlts_patterns "sd03".toList _).1 (by decide)).1, "xx ".toList, " / bp02".toList,
        by decide, by decide⟩
    have hle := hmin 3 _ h3
    obtain ⟨_, pre, post, e, hlen⟩ := hat
    have e2 : ['x', 'x', ' ', 's', 'd', '0', '3', ' ', '/', ' ', 'b', 'p', '0', '2'] =
        pre ++ ['s', 'd', '0', '3'] ++ post := e
    rcases pre with _ | ⟨a, _ | ⟨b, _ | ⟨c, pre⟩⟩⟩
    · simp at e2
    · simp at e2
    · simp at e2
    · simp only [List.length_cons] at hlen
      omega
  subst hi
  have hb : ∀ s ∈ ["No. 7".toList], ¬ ContainsCode s := by
    intro s hs
    rw [← regexMatch_eq_none_iff]
    revert s hs
    decide
  have h := ((deriveSet_first_match asciiEngine splitRecord).2.1
    ["No. 7".toList] "xx sd03 / bp02".toList ["PR".toList] 3 "sd03".toList (by decide) hb hat hmin)
  refine ⟨by decide, hb, hat, hmin, ?_⟩
  rw [h.1, h.2]
  decide

/-! ## Filter engine: properties -/

/-- The method `includes` decides occurrence as a contiguous part. -/
theorem includes_iff (hay needle : Str) : includes hay needle = true ↔ Occurs needle hay := by
  induction hay with
  | nil =>
    simp only [includes, List.isEmpty_iff, Occurs]
    constructor
    · rintro rfl; exact ⟨[], [], rfl⟩
    · rintro ⟨pre, post, e⟩
      have := congrArg List.length e
      simp only [List.length_nil, List.length_append] at this
      exact List.length_eq_zero.1 (by omega)
  | cons c cs ih =>
    simp only [includes, Bool.or_eq_true, List.isPrefixOf_iff_prefix, ih, Occurs]
    constructor
    · rintro (⟨t, ht⟩ | ⟨pre, post, e⟩)
      · exact ⟨[], t, by simpa using ht.symm⟩
      · exact ⟨c :: pre, post, by rw [e]; rfl⟩
    · rintro ⟨pre, post, e⟩
      cases pre with
      | nil => exact Or.inl ⟨post, by simpa using e.symm⟩
      | cons c' pre' =>
        simp only [List.cons_append, List.cons.injEq] at e
        exact Or.inr ⟨pre', post, e.2⟩

/-- The callback of `applyFilters` holds exactly when the record passes the four criteria. -/
theorem matchesCard_iff (E : Engine) (c : Criteria) (card : Card) :
    matchesCard E (E.toLowerCase (trim c.search)) c.rarity c.feature c.sectionValue card = true ↔
      Passes E c card := by
  simp only [matchesCard, Passes, Bool.and_eq_true, Bool.or_eq_true, List.isEmpty_iff,
    beq_iff_eq, includes_iff, and_assoc, or_assoc]

/-- An empty search box gives the empty search text. -/
theorem toLowerCase_nil (E : Engine) : E.toLowerCase (trim []) = [] := by
  have := E.lowerCase_ascii [] (by simp)
  simpa [Engine.toLowerCase, trim] using this

/-- C7.  For every collection and every criteria tuple the subset `applyFilters`
computes is the collection filtered, in its original order, by the conjunction of the
four criteria: the trimmed lower-cased search text is empty or occurs in the
lower-cased normalized `name` or in the lower-cased normalized `participating_works`;
the rarity is empty or equals the normalized `rarity`; the feature is empty or equals
the normalized `feature`; the section is empty or equals `deriveSet(record)`.  The
search criterion reads `name` and `participating_works` only, never `feature`.  On the
records A(R, Kaiju), B(R, Ultra Hero), C(SR, Kaiju) the criteria `{rarity: "R"}` give
`[A, B]`; the search text `"kai"` keeps a record named `"Kaiju King"` and drops a
record named `"Gomora"` whose `feature` is `"Kaiju"`. -/
theorem applyFilters_contract (E : Engine) (cards : List Card) (c : Criteria) :
    (∀ card, matchesCard E (E.toLowerCase (trim c.search)) c.rarity c.feature c.sectionValue
        card = true ↔ Passes E c card) ∧
    applyFilters E cards c =
      cards.filter (matchesCard E (E.toLowerCase (trim c.search)) c.rarity c.feature
        c.sectionValue) ∧
    (applyFilters E cards c).Sublist cards ∧
    (∀ card, card ∈ applyFilters E cards c ↔ card ∈ cards ∧ Passes E c card) ∧
    (∀ card card' : Card,
      getProp card "name".toList = getProp card' "name".toList →
      getProp card "participating_works".toList = getProp card' "participating_works".toList →
      (Passes E { search := c.search, rarity := [], feature := [], sectionValue := [] } card ↔
        Passes E { search := c.search, rarity := [], feature := [], sectionValue := [] } card')) ∧
    applyFilters E [recordA, recordB, recordC]
      { search := [], rarity := "R".toList, feature := [], sectionValue := [] } =
      [recordA, recordB] ∧
    applyFilters E [kingRecord, gomoraRecord]
      { search := "kai".toList, rarity := [], feature := [], sectionValue := [] } =
      [kingRecord] := by
  refine ⟨matchesCard_iff E c, rfl, List.filter_sublist _, ?_, ?_, ?_, ?_⟩
  · intro card
    simp only [applyFilters, List.mem_filter, matchesCard_iff]
  · intro card card' h1 h2
    simp only [Passes, h1, h2, true_or, and_true]
  · simp only [applyFilters, toLowerCase_nil]
    rfl
  · have hq : E.toLowerCase (trim "kai".toList) = "kai".toList := by
      show E.lowerCase "kai".toList = _
      rw [E.lowerCase_ascii _ (by decide)]
      rfl
    have h1 : E.toLowerCase (normalizeText E (getProp kingRecord "name".toList) unknown) =
        "kaiju king".toList := by
      show E.lowerCase "Kaiju King".toList = _
      rw [E.lowerCase_ascii _ (by decide)]
      rfl
    have h2 : E.toLowerCase (normalizeText E (getProp gomoraRecord "name".toList) unknown) =
        "gomora".toList := by
      show E.lowerCase "Gomora".toList = _
      rw [E.lowerCase_ascii _ (by decide)]
      rfl
    have h3 : ∀ card ∈ [kingRecord, gomoraRecord],
        E.toLowerCase (normalizeText E (getProp card "participating_works".toList) unknown) =
        "-".toList := by
      intro card hc
      simp only [List.mem_cons, List.mem_singleton, List.not_mem_nil, or_false] at hc
      rcases hc with rfl | rfl
      all_goals
        show E.lowerCase "-".toList = _
        rw [E.lowerCase_ascii _ (by decide)]
        rfl
    simp only [applyFilters, hq, List.filter_cons, matchesCard, h1, h2,
      h3 kingRecord (by simp), h3 gomoraRecord (by simp)]
    rfl

/-! ## Ranking helper: properties -/

/-- The sequence `Object.entries(o)` is a rearrangement of the own properties. -/
theorem objectEntries_perm {α : Type} (o : List (Str × α)) : (objectEntries o).Perm o := by
  unfold objectEntries
  refine List.Perm.trans (List.Perm.append_right _ (List.perm_insertionSort _ _)) ?_
  have h : (fun p : Str × α => (arrayIndex? p.1).isNone) =
      (fun p => !(arrayIndex? p.1).isSome) := by
    funext p
    cases arrayIndex? p.1 <;> rfl
  rw [h]
  exact List.filter_append_perm _ _

/-- Inserting an entry into a list keeps the entries of any given count in the order
`entry, then the list`. -/
theorem filter_orderedInsert_count (n : Nat) (a : Str × Nat) (l : List (Str × Nat)) :
    (List.orderedInsert (fun a b : Str × Nat => b.2 ≤ a.2) a l).filter (fun p => p.2 == n) =
      (a :: l).filter (fun p => p.2 == n) := by
  induction l with
  | nil => rfl
  | cons b l ih =>
    simp only [List.orderedInsert]
    split
    · rfl
    · rename_i hba
      have hlt : a.2 < b.2 := Nat.lt_of_not_le hba
      by_cases hb : b.2 = n
      · have ha : ¬ a.2 = n := by omega
        simp only [List.filter_cons, hb, beq_self_eq_true, if_true, ih, beq_iff_eq, ha, if_false]
      · simp only [List.filter_cons, beq_iff_eq, hb, if_false, ih]

/-- The sort by descending count keeps the entries of any given count in their order. -/
theorem filter_sortByCountDesc (n : Nat) (l : List (Str × Nat)) :
    (sortByCountDesc l).filter (fun p => p.2 == n) = l.filter (fun p => p.2 == n) := by
  induction l with
  | nil => rfl
  | cons a l ih =>
    simp only [sortByCountDesc, List.insertionSort] at ih ⊢
    rw [filter_orderedInsert_count]
    simp only [List.filter_cons, ih]

/-- The sort by descending count yields non-increasing counts. -/
theorem sorted_sortByCountDesc (l : List (Str × Nat)) :
    (sortByCountDesc l).Pairwise (fun a b => b.2 ≤ a.2) := by
  have : IsTotal (Str × Nat) (fun a b => b.2 ≤ a.2) := ⟨fun a b => Nat.le_total b.2 a.2⟩
  have : IsTrans (Str × Nat) (fun a b => b.2 ≤ a.2) := ⟨fun a b c h1 h2 => Nat.le_trans h2 h1⟩
  exact List.sorted_insertionSort (fun a b : Str × Nat => b.2 ≤ a.2) l

/-- C9.  For every frequency table `sortCounts` returns `{label, value}` entries that
are a permutation of the table's (key, count) pairs, with non-increasing counts, in
which the entries of any one count stand in the order `Object.entries` lists them
(the sort is stable); `Object.entries` itself is a rearrangement of the own
properties (array-index keys first). -/
theorem sortCounts_contract (counts : List (Str × Nat)) :
    ((sortCounts counts).map (fun e => (e.label, e.value))).Perm counts ∧
    (sortCounts counts).Pairwise (fun a b => b.value ≤ a.value) ∧
    (∀ n : Nat, (sortCounts counts).filter (fun e => e.value == n) =
      ((objectEntries counts).filter (fun p => p.2 == n)).map
        (fun p => { label := p.1, value := p.2 })) ∧
    (objectEntries counts).Perm counts ∧
    sortCounts [("b".toList, 1), ("a".toList, 2), ("10".toList, 2), ("9".toList, 2),
        ("c".toList, 3)] =
      [⟨"c".toList, 3⟩, ⟨"9".toList, 2⟩, ⟨"10".toList, 2⟩, ⟨"a".toList, 2⟩, ⟨"b".toList, 1⟩] := by
  refine ⟨?_, ?_, ?_, objectEntries_perm counts, by decide⟩
  · simp only [sortCounts, List.map_map]
    have : ((fun e : Entry => (e.label, e.value)) ∘ fun p : Str × Nat =>
        ({ label := p.1, value := p.2 } : Entry)) = id := by
      funext p; rfl
    rw [this, List.map_id]
    exact (List.perm_insertionSort _ _).trans (objectEntries_perm counts)
  · simp only [sortCounts]
    rw [List.pairwise_map]
    exact sorted_sortByCountDesc _
  · intro n
    simp only [sortCounts]
    rw [← filter_sortByCountDesc n (objectEntries counts), List.filter_map]
    rfl

/-! ## Frequency tables -/

/-- Adding one more value to a `Set`: it goes last unless it is already there. -/
theorem distinct_concat (l : List Str) (k : Str) :
    distinct (l ++ [k]) = if k ∈ distinct l then distinct l else distinct l ++ [k] := by
  simp only [distinct, List.foldl_append, List.foldl_cons, List.foldl_nil]

/-- The distinct values of a list are its members. -/
theorem mem_distinct (l : List Str) (x : Str) : x ∈ distinct l ↔ x ∈ l := by
  induction l using List.reverseRecOn with
  | nil => simp [distinct]
  | append_singleton l k ih =>
    rw [distinct_concat]
    split
    · rename_i hk
      simp only [List.mem_append, List.mem_singleton, ih]
      constructor
      · exact Or.inl
      · rintro (h | rfl)
        · exact h
        · exact ih.1 hk |> fun h => by simpa using h
    · simp only [List.mem_append, List.mem_singleton, ih]

/-- The distinct values of a list hold no value twice. -/
theorem nodup_distinct (l : List Str) : (distinct l).Nodup := by
  induction l using List.reverseRecOn with
  | nil => simp [distinct]
  | append_singleton l k ih =>
    rw [distinct_concat]
    split
    · exact ih
    · rename_i hk
      exact List.Nodup.append ih (List.nodup_singleton k) (by simpa using hk)

/-- Looking a key up in a table built from a list of keys. -/
theorem lookup_map_self (f : Str → JsVal) (l : List Str) (k : Str) :
    (l.map (fun x => (x, f x))).lookup k = if k ∈ l then some (f k) else none := by
  induction l with
  | nil => rfl
  | cons a l ih =>
    simp only [List.map_cons, List.lookup_cons, List.mem_cons]
    by_cases h : k = a
    · subst h; simp
    · have : (k == a) = false := by simpa using h
      simp only [this, ih, h, false_or]

/-- The own cell of a key in the frequency table. -/
theorem lookup_frequencies (keys : List Str) (k : Str) :
    (frequencies keys).lookup k =
      if k ∈ keys then some (JsVal.num (keys.count k)) else none := by
  simp only [frequencies, lookup_map_self, mem_distinct]

/-- Counting one more key that `Object.prototype` does not define turns the frequency table
of the keys seen so far into the frequency table with that key added. -/
theorem bump_frequencies (E : Engine) (done : List Str) (k : Str) (hk : k ∉ reservedKeys) :
    bump E (frequencies done) k = frequencies (done ++ [k]) := by
  have hk1 : k ≠ protoKey := fun h => hk (by rw [h]; exact List.mem_cons_self _ _)
  have hk2 : k ∉ objectPrototypeFunctions := fun h => hk (List.mem_cons_of_mem _ h)
  by_cases hmem : k ∈ done
  · have hpos : 0 < done.count k := List.count_pos_iff.2 hmem
    have hd : k ∈ distinct done := (mem_distinct _ _).2 hmem
    have hne : ((done.count k : Nat) : Int) ≠ 0 := by omega
    simp only [bump, getProp, setProp, lookup_frequencies, hmem, if_true, jsOr, truthy,
      bne_iff_ne, ne_eq, hne, not_false_eq_true, decide_True, jsAddOne, Option.isSome_some]
    simp only [frequencies, distinct_concat, hd, if_true, List.map_map]
    apply List.map_congr_left
    intro x _
    simp only [Function.comp, List.count_append, List.count_singleton]
    by_cases hx : x = k
    · subst hx; simp
    · have : ¬ k = x := fun h => hx h.symm
      simp [hx, this]
  · have hd : k ∉ distinct done := fun h => hmem ((mem_distinct _ _).1 h)
    simp only [bump, getProp, setProp, lookup_frequencies, hmem, if_false, hk1, hk2, jsOr,
      truthy, jsAddOne, Option.isSome_none, Bool.false_eq_true]
    simp only [frequencies, distinct_concat, hd, if_false, List.map_append, List.map_cons,
      List.map_nil, List.count_append, List.count_singleton, beq_self_eq_true, if_true,
      List.count_eq_zero_of_not_mem hmem]
    congr 1
    apply List.map_congr_left
    intro x hx
    have : ¬ k = x := fun h => hd (h ▸ hx)
    simp [this]

/-- Counting a list of keys that `Object.prototype` does not define, starting from a
frequency table. -/
theorem foldl_bump_frequencies (E : Engine) (done keys : List Str)
    (h : ∀ k ∈ keys, k ∉ reservedKeys) :
    keys.foldl (bump E) (frequencies done) = frequencies (done ++ keys) := by
  induction keys generalizing done with
  | nil => simp
  | cons k keys ih =>
    rw [List.foldl_cons, bump_frequencies E done k (h k (List.mem_cons_self _ _)),
      ih (done ++ [k]) (fun x hx => h x (List.mem_cons_of_mem _ hx))]
    simp

/-- The sum of the counts of a table whose cells are natural numbers. -/
theorem sumCounts_map (d : List Str) (f : Str → Nat) :
    sumCounts? (d.map (fun k => (k, JsVal.num (f k)))) = some (d.map f).sum := by
  induction d with
  | nil => rfl
  | cons a d ih =>
    simp only [List.map_cons, sumCounts?, ih, JsVal.count?, Int.natCast_nonneg, if_true,
      Int.toNat_ofNat, List.sum_cons]

/-- The two equality tests on strings count the same occurrences. -/
theorem count_inst (keys : List Str) (k : Str) :
    @List.count Str List.instBEq k keys = @List.count Str instBEqOfDecidableEq k keys := by
  induction keys with
  | nil => rfl
  | cons a l ih =>
    have e1 := @List.count_cons Str List.instBEq k a l
    have e2 := @List.count_cons Str instBEqOfDecidableEq k a l
    rw [e1, e2, ih]
    by_cases h : a = k
    · subst h
      have h1 : (@BEq.beq Str List.instBEq a a) = true := by simp
      have h2 : (@BEq.beq Str instBEqOfDecidableEq a a) = true := by simp
      rw [h1, h2]
    · have h1 : (@BEq.beq Str List.instBEq a k) = false := by simpa using h
      have h2 : (@BEq.beq Str instBEqOfDecidableEq a k) = false := by simpa using h
      rw [h1, h2]

/-- The counts of a frequency table sum to the number of keys counted. -/
theorem sumCounts_frequencies (keys : List Str) :
    sumCounts? (frequencies keys) = some keys.length := by
  rw [frequencies, sumCounts_map]
  have hp : (distinct keys).Perm keys.dedup :=
    (List.perm_ext_iff_of_nodup (nodup_distinct keys) (List.nodup_dedup keys)).2
      (fun x => by rw [mem_distinct, List.mem_dedup])
  rw [(hp.map _).sum_eq]
  simp only [count_inst]
  exact congrArg some (List.sum_map_count_dedup_eq_length keys)

/-- The function `aggregate` counts the bucket keys of the records, in order. -/
theorem aggregate_eq_foldl (E : Engine) (cards : List Card) (key : Str) :
    aggregate E cards key = (cards.map (bucketOf E key)).foldl (bump E) [] := by
  simp only [aggregate, List.foldl_map, bucketOf]

/-- The function `aggregateBySet` counts the derived sets of the records, in order. -/
theorem aggregateBySet_eq_foldl (E : Engine) (cards : List Card) :
    aggregateBySet E cards = (cards.map (deriveSet E)).foldl (bump E) [] := by
  simp only [aggregateBySet, List.foldl_map]

/-- The function `aggregateFiltered` counts the bucket keys of the counted records, in order. -/
theorem aggregateFiltered_eq_foldl (E : Engine) (cards : List Card) (key : Str)
    (filterFn : Option (Card → Bool)) (skipUnknown : Bool) (skipValues : List Str) :
    aggregateFiltered E cards key filterFn skipUnknown skipValues =
      ((cards.filter (isCounted E key filterFn skipUnknown skipValues)).map
        (bucketOf E key)).foldl (bump E) [] := by
  unfold aggregateFiltered
  generalize ([] : Obj) = acc
  induction cards generalizing acc with
  | nil => rfl
  | cons card cards ih =>
    rw [List.foldl_cons, ih]
    simp only [List.filter_cons, isCounted, bucketOf]
    cases filterFn with
    | none =>
      by_cases h2 : (skipUnknown && normalizeText E (getProp card key) unknown == unknown) = true
      · simp [h2]
      · by_cases h3 : normalizeText E (getProp card key) unknown ∈ skipValues
        · simp [h2, h3]
        · simp [h2, h3, bucketOf]
    | some f =>
      by_cases h1 : f card = true
      · by_cases h2 : (skipUnknown && normalizeText E (getProp card key) unknown == unknown) = true
        · simp [h1, h2]
        · by_cases h3 : normalizeText E (getProp card key) unknown ∈ skipValues
          · simp [h1, h2, h3]
          · simp [h1, h2, h3, bucketOf]
      · simp [h1]

/-- The frequency table of no key is the empty object. -/
theorem frequencies_nil : frequencies [] = [] := rfl

/-- Counting, from the empty object, keys that `Object.prototype` does not define gives
their frequency table. -/
theorem foldl_bump_eq (E : Engine) (keys : List Str) (h : ∀ k ∈ keys, k ∉ reservedKeys) :
    keys.foldl (bump E) [] = frequencies keys := by
  have := foldl_bump_frequencies E [] keys h
  simpa [frequencies_nil] using this

/-- Reading the cell of a counted key in a frequency table gives its number of occurrences. -/
theorem getProp_frequencies (keys : List Str) (k : Str) (hk : k ∈ keys) :
    getProp (frequencies keys) k = .num (keys.count k) := by
  simp only [getProp, lookup_frequencies, hk, if_true]

/-- The own property names of a frequency table are the distinct keys, first seen first. -/
theorem keys_frequencies (keys : List Str) :
    (frequencies keys).map Prod.fst = distinct keys := by
  simp only [frequencies, List.map_map]
  exact List.map_id _

/-! ## Aggregators: properties -/

/-- An assignment adds no own property name but the assigned one. -/
theorem keys_setProp (o : Obj) (k : Str) (v : JsVal) (x : Str)
    (hx : x ∈ (setProp o k v).map Prod.fst) : x ∈ o.map Prod.fst ∨ x = k := by
  unfold setProp at hx
  split at hx
  · left
    simp only [List.map_map, List.mem_map, Function.comp] at hx ⊢
    obtain ⟨p, hp, rfl⟩ := hx
    refine ⟨p, hp, ?_⟩
    split
    · rename_i h; exact h
    · rfl
  · split at hx
    · exact Or.inl hx
    · simp only [List.map_append, List.map_cons, List.map_nil, List.mem_append,
        List.mem_singleton] at hx
      exact hx

/-- Counting keys adds no own property name but the counted keys. -/
theorem keys_foldl_bump (E : Engine) (keys : List Str) (acc : Obj) (x : Str)
    (hx : x ∈ (keys.foldl (bump E) acc).map Prod.fst) : x ∈ acc.map Prod.fst ∨ x ∈ keys := by
  induction keys generalizing acc with
  | nil => exact Or.inl hx
  | cons k keys ih =>
    rw [List.foldl_cons] at hx
    rcases ih _ hx with h | h
    · rcases keys_setProp _ _ _ _ h with h | h
      · exact Or.inl h
      · exact Or.inr (h ▸ List.mem_cons_self _ _)
    · exact Or.inr (List.mem_cons_of_mem _ h)

/-- With the default fallback `normalizeText` never returns the empty string. -/
theorem normalizeText_unknown_ne_nil (E : Engine) (v : JsVal) :
    normalizeText E v unknown ≠ [] := by
  unfold normalizeText
  split
  · decide
  · simp only
    split
    · rename_i h
      intro h0
      rw [h0] at h
      exact h rfl
    · decide

/-- The upper case of a non-empty string is not empty. -/
theorem toUpperCase_ne_nil (E : Engine) (s : Str) (h : s ≠ []) : E.toUpperCase s ≠ [] := by
  cases s with
  | nil => exact absurd rfl h
  | cons c cs =>
    simp only [Engine.toUpperCase, List.flatMap_cons, ne_eq, List.append_eq_nil, not_and]
    intro h0
    exact absurd h0 (E.upperOf_ne_nil c)

/-- An upper-cased string holds no ASCII lower-case letter. -/
theorem toUpperCase_caps (E : Engine) (s : Str) (d : Char) (hd : d ∈ E.toUpperCase s) :
    d.isLower = false := by
  simp only [Engine.toUpperCase, List.mem_flatMap] at hd
  obtain ⟨c, _, hc⟩ := hd
  exact E.upperOf_caps c d hc

/-- Every property name of `Object.prototype` holds an ASCII lower-case letter. -/
theorem reservedKeys_lower : ∀ k ∈ reservedKeys, k.any Char.isLower = true := by
  decide

/-- An upper-cased string is not a property name of `Object.prototype`. -/
theorem toUpperCase_not_reserved (E : Engine) (s : Str) : E.toUpperCase s ∉ reservedKeys := by
  intro h
  have := reservedKeys_lower _ h
  simp only [List.any_eq_true] at this
  obtain ⟨d, hd, hl⟩ := this
  rw [toUpperCase_caps E s d hd] at hl
  cases hl

/-- The function `deriveSet` returns `"Unknown"` or the upper case of a non-empty string. -/
theorem deriveSet_cases (E : Engine) (card : Card) :
    deriveSet E card = unknown ∨ ∃ s, s ≠ [] ∧ deriveSet E card = E.toUpperCase s := by
  cases hf : (sources E card).findSome? (regexMatch patterns) with
  | some m =>
    right
    obtain ⟨_, cand, _, _, hm, _⟩ := List.findSome?_eq_some_iff.1 hf
    obtain ⟨_, _, _, hc, _⟩ := regexMatch_eq_some cand m hm
    exact ⟨m, isCode_ne_nil m hc, deriveSet_of_match E card m hf⟩
  | none =>
    rw [deriveSet_of_no_match E card hf]
    split
    · exact Or.inl rfl
    · exact Or.inr ⟨_, normalizeText_unknown_ne_nil E _, rfl⟩

/-- The function `deriveSet` never returns the empty string. -/
theorem deriveSet_ne_nil (E : Engine) (card : Card) : deriveSet E card ≠ [] := by
  rcases deriveSet_cases E card with h | ⟨s, hs, h⟩
  · rw [h]; decide
  · rw [h]; exact toUpperCase_ne_nil E s hs

/-- The function `deriveSet` never returns a property name of `Object.prototype`. -/
theorem deriveSet_not_reserved (E : Engine) (card : Card) : deriveSet E card ∉ reservedKeys := by
  rcases deriveSet_cases E card with h | ⟨s, _, h⟩
  · rw [h]; decide
  · rw [h]; exact toUpperCase_not_reserved E s

/-- The function `aggregateBySet` returns the frequency table of the derived sets, for every
collection. -/
theorem aggregateBySet_eq (E : Engine) (cards : List Card) :
    aggregateBySet E cards = frequencies (cards.map (deriveSet E)) := by
  rw [aggregateBySet_eq_foldl]
  apply foldl_bump_eq
  intro k hk
  obtain ⟨card, _, rfl⟩ := List.mem_map.1 hk
  exact deriveSet_not_reserved E card

/-- When no bucket key is a property name of `Object.prototype`, `aggregate` returns the
frequency table of the bucket keys. -/
theorem aggregate_eq (E : Engine) (cards : List Card) (key : Str)
    (h : ∀ card ∈ cards, bucketOf E key card ∉ reservedKeys) :
    aggregate E cards key = frequencies (cards.map (bucketOf E key)) := by
  rw [aggregate_eq_foldl]
  apply foldl_bump_eq
  intro k hk
  obtain ⟨card, hc, rfl⟩ := List.mem_map.1 hk
  exact h card hc

/-- When no bucket key is a property name of `Object.prototype`, the cell of a record's
bucket holds the number of records of that bucket. -/
theorem getProp_aggregate (E : Engine) (cards : List Card) (key : Str)
    (h : ∀ card ∈ cards, bucketOf E key card ∉ reservedKeys) (card : Card) (hc : card ∈ cards) :
    getProp (aggregate E cards key) (bucketOf E key card) =
      .num ((cards.filter (fun c => bucketOf E key c == bucketOf E key card)).length) := by
  rw [aggregate_eq E cards key h, getProp_frequencies _ _ (List.mem_map_of_mem _ hc),
    List.count_eq_countP, List.countP_map, List.countP_eq_length_filter]
  rfl

/-- C4.  The code at the failing input, and where the claim holds.  For the
collection `[{ rarity: "__proto__" }]` the table `aggregate` returns is `{}`: the
counts sum to 0, not to the 1 record, and reading the bucket gives `Object.prototype`,
not a count.  For `[{ rarity: "constructor" }]` the cell is the string
`nativeSource + "1"`, not a count.  For every collection and field key whose bucket
keys are not property names of `Object.prototype`, the table is the frequency table of
the bucket keys: its counts sum to the number of records and the cell of each bucket
is the number of records that normalize to it; rarities R, R, SR give
`{R: 2, SR: 1}`. -/
theorem aggregate_counts (E : Engine) :
    aggregate E [protoRarityRecord] "rarity".toList = [] ∧
    sumCounts? (aggregate E [protoRarityRecord] "rarity".toList) = some 0 ∧
    getProp (aggregate E [protoRarityRecord] "rarity".toList) "__proto__".toList = .protoObj ∧
    aggregate E [constructorRarityRecord] "rarity".toList =
      [("constructor".toList, .str (E.nativeSource "constructor".toList ++ ['1']))] ∧
    sumCounts? (aggregate E [constructorRarityRecord] "rarity".toList) = none ∧
    (∀ (cards : List Card) (key : Str),
      (∀ card ∈ cards, bucketOf E key card ∉ reservedKeys) →
      aggregate E cards key = frequencies (cards.map (bucketOf E key)) ∧
      sumCounts? (aggregate E cards key) = some cards.length ∧
      (aggregate E cards key).map Prod.fst = distinct (cards.map (bucketOf E key)) ∧
      ∀ card ∈ cards, getProp (aggregate E cards key) (bucketOf E key card) =
        .num ((cards.filter (fun c => bucketOf E key c == bucketOf E key card)).length)) ∧
    aggregate E [recordA, recordB, recordC] "rarity".toList =
      [("R".toList, .num 2), ("SR".toList, .num 1)] := by
  refine ⟨rfl, rfl, rfl, rfl, rfl, ?_, rfl⟩
  intro cards key h
  have he := aggregate_eq E cards key h
  refine ⟨he, ?_, ?_, ?_⟩
  · rw [he, sumCounts_frequencies, List.length_map]
  · rw [he, keys_frequencies]
  · exact getProp_aggregate E cards key h

/-- C4, witness: the records A, B, C have the rarity buckets R, R, SR, none of them a
property name of `Object.prototype`; the counts of the table sum to 3 and the bucket
of A holds 2. -/
theorem aggregate_counts_witness :
    (∀ card ∈ [recordA, recordB, recordC],
      bucketOf asciiEngine "rarity".toList card ∉ reservedKeys) ∧
    sumCounts? (aggregate asciiEngine [recordA, recordB, recordC] "rarity".toList) = some 3 ∧
    getProp (aggregate asciiEngine [recordA, recordB, recordC] "rarity".toList) "R".toList =
      .num 2 := by
  have h : ∀ card ∈ [recordA, recordB, recordC],
      bucketOf asciiEngine "rarity".toList card ∉ reservedKeys := by decide
  have hg := (aggregate_counts asciiEngine).2.2.2.2.2.1 [recordA, recordB, recordC]
    "rarity".toList h
  exact ⟨h, hg.2.1, hg.2.2.2 recordA (by decide)⟩

/-- A record is counted exactly when it passes the three predicates of `aggregateFiltered`. -/
theorem isCounted_iff (E : Engine) (key : Str) (filterFn : Option (Card → Bool))
    (skipUnknown : Bool) (skipValues : List Str) (card : Card) :
    isCounted E key filterFn skipUnknown skipValues card = true ↔
      (∀ f, filterFn = some f → f card = true) ∧
      (skipUnknown = true → bucketOf E key card ≠ unknown) ∧
      bucketOf E key card ∉ skipValues := by
  cases filterFn <;> cases skipUnknown <;> simp [isCounted, and_assoc]

/-- Every own property name of the table of `aggregateFiltered` is the bucket key of a
counted record. -/
theorem keys_aggregateFiltered (E : Engine) (cards : List Card) (key : Str)
    (filterFn : Option (Card → Bool)) (skipUnknown : Bool) (skipValues : List Str) (k : Str)
    (hk : k ∈ (aggregateFiltered E cards key filterFn skipUnknown skipValues).map Prod.fst) :
    ∃ card ∈ cards, isCounted E key filterFn skipUnknown skipValues card = true ∧
      bucketOf E key card = k := by
  rw [aggregateFiltered_eq_foldl] at hk
  rcases keys_foldl_bump E _ _ _ hk with h | h
  · simp at h
  · obtain ⟨card, hc, rfl⟩ := List.mem_map.1 h
    obtain ⟨h1, h2⟩ := List.mem_filter.1 hc
    exact ⟨card, h1, h2, rfl⟩

/-- C5.  The code at the failing input, and where the claim holds.  The record
`{ rarity: "__proto__" }` passes every predicate of `aggregateFiltered` with
`skipUnknown: true, skipValues: ["-"]`, yet the table returned for `[that record]` is
`{}`.  For every input whose counted bucket keys are not property names of
`Object.prototype`, the table is the frequency table of the bucket keys of the counted
records: it has a bucket `k` exactly when a record passes `filterFn`, normalizes to
`k`, `k` is not `"Unknown"` while `skipUnknown` is set and `k` is not in `skipValues`;
the cell is the number of such records and the counts sum to the number of counted
records.  For every input, with `skipUnknown: true, skipValues: ["-"]` no own key is
`"Unknown"` or `"-"`. -/
theorem aggregateFiltered_counts (E : Engine) :
    isCounted E "rarity".toList none true ["-".toList] protoRarityRecord = true ∧
    aggregateFiltered E [protoRarityRecord] "rarity".toList none true ["-".toList] = [] ∧
    (∀ (key : Str) (filterFn : Option (Card → Bool)) (skipUnknown : Bool)
        (skipValues : List Str) (card : Card),
      isCounted E key filterFn skipUnknown skipValues card = true ↔
        (∀ f, filterFn = some f → f card = true) ∧
        (skipUnknown = true → bucketOf E key card ≠ unknown) ∧
        bucketOf E key card ∉ skipValues) ∧
    (∀ (cards : List Card) (key : Str) (filterFn : Option (Card → Bool)) (skipUnknown : Bool)
        (skipValues : List Str),
      (∀ card ∈ cards, isCounted E key filterFn skipUnknown skipValues card = true →
        bucketOf E key card ∉ reservedKeys) →
      aggregateFiltered E cards key filterFn skipUnknown skipValues =
        frequencies ((cards.filter (isCounted E key filterFn skipUnknown skipValues)).map
          (bucketOf E key)) ∧
      sumCounts? (aggregateFiltered E cards key filterFn skipUnknown skipValues) =
        some (cards.filter (isCounted E key filterFn skipUnknown skipValues)).length ∧
      (∀ k, k ∈ (aggregateFiltered E cards key filterFn skipUnknown skipValues).map Prod.fst ↔
        ∃ card ∈ cards, isCounted E key filterFn skipUnknown skipValues card = true ∧
          bucketOf E key card = k) ∧
      ∀ card ∈ cards, isCounted E key filterFn skipUnknown skipValues card = true →
        getProp (aggregateFiltered E cards key filterFn skipUnknown skipValues)
            (bucketOf E key card) =
          .num ((cards.filter (fun c => isCounted E key filterFn skipUnknown skipValues c &&
            bucketOf E key c == bucketOf E key card)).length)) ∧
    (∀ (cards : List Card) (key : Str) (filterFn : Option (Card → Bool)) (k : Str),
      k ∈ (aggregateFiltered E cards key filterFn true ["-".toList]).map Prod.fst →
        k ≠ "Unknown".toList ∧ k ≠ "-".toList) := by
  refine ⟨rfl, rfl, isCounted_iff E, ?_, ?_⟩
  · intro cards key filterFn skipUnknown skipValues h
    have he : aggregateFiltered E cards key filterFn skipUnknown skipValues =
        frequencies ((cards.filter (isCounted E key filterFn skipUnknown skipValues)).map
          (bucketOf E key)) := by
      rw [aggregateFiltered_eq_foldl]
      apply foldl_bump_eq
      intro k hk
      obtain ⟨card, hc, rfl⟩ := List.mem_map.1 hk
      obtain ⟨h1, h2⟩ := List.mem_filter.1 hc
      exact h card h1 h2
    refine ⟨he, ?_, ?_, ?_⟩
    · rw [he, sumCounts_frequencies, List.length_map]
    · intro k
      rw [he, keys_frequencies, mem_distinct, List.mem_map]
      simp only [List.mem_filter, and_assoc]
    · intro card hc hcounted
      rw [he, getProp_frequencies _ _
        (List.mem_map_of_mem _ (List.mem_filter.2 ⟨hc, hcounted⟩)), List.count_eq_countP,
        List.countP_map, List.countP_eq_length_filter, List.filter_filter]
      congr 3
      apply List.filter_congr
      intro c _
      exact Bool.and_comm _ _
  · intro cards key filterFn k hk
    obtain ⟨card, _, hcounted, rfl⟩ := keys_aggregateFiltered E cards key filterFn true _ k hk
    obtain ⟨_, h2, h3⟩ := (isCounted_iff E key filterFn true _ card).1 hcounted
    exact ⟨h2 rfl, fun h => h3 (by rw [h]; exact List.mem_singleton_self _)⟩

/-- C5, witness: of the records A, B, C the filter `feature === "Kaiju"` counts A and
C, whose rarity buckets R and SR are not property names of `Object.prototype`; the
counts of the table sum to 2. -/
theorem aggregateFiltered_counts_witness :
    (∀ card ∈ [recordA, recordB, recordC],
      isCounted asciiEngine "rarity".toList (some (isKaiju asciiEngine)) true ["-".toList]
        card = true →
      bucketOf asciiEngine "rarity".toList card ∉ reservedKeys) ∧
    sumCounts? (aggregateFiltered asciiEngine [recordA, recordB, recordC] "rarity".toList
      (some (isKaiju asciiEngine)) true ["-".toList]) = some 2 := by
  have h : ∀ card ∈ [recordA, recordB, recordC],
      isCounted asciiEngine "rarity".toList (some (isKaiju asciiEngine)) true ["-".toList]
        card = true →
      bucketOf asciiEngine "rarity".toList card ∉ reservedKeys := by decide
  have hg := (aggregateFiltered_counts asciiEngine).2.2.2.1 [recordA, recordB, recordC]
    "rarity".toList (some (isKaiju asciiEngine)) true ["-".toList] h
  exact ⟨h, hg.2.1⟩

/-! ## Option lists and their buckets -/

/-- Sorting an array of strings keeps its members. -/
theorem mem_sortStrings (xs : List Str) (x : Str) : x ∈ sortStrings xs ↔ x ∈ xs :=
  (List.perm_insertionSort _ xs).mem_iff

/-- The options of a field are the bucket keys of the records. -/
theorem mem_uniqueValues (E : Engine) (cards : List Card) (key v : Str) :
    v ∈ uniqueValues E cards key ↔ ∃ card ∈ cards, bucketOf E key card = v := by
  simp only [uniqueValues, mem_sortStrings, mem_distinct, List.mem_map, bucketOf]

/-- The set options are the derived sets of the records. -/
theorem mem_uniqueSets (E : Engine) (cards : List Card) (s : Str) :
    s ∈ uniqueSets E cards ↔ ∃ card ∈ cards, deriveSet E card = s := by
  simp only [uniqueSets, mem_sortStrings, mem_distinct, List.mem_map]

/-- Selecting a non-empty rarity alone keeps the records of that rarity bucket. -/
theorem applyFilters_rarity (E : Engine) (cards : List Card) (v : Str) (hv : v ≠ []) :
    applyFilters E cards { search := [], rarity := v, feature := [], sectionValue := [] } =
      cards.filter (fun c => bucketOf E "rarity".toList c == v) := by
  simp only [applyFilters, toLowerCase_nil]
  apply List.filter_congr
  intro c _
  cases v with
  | nil => exact absurd rfl hv
  | cons a l => simp [matchesCard, bucketOf]

/-- Selecting a non-empty set alone keeps the records of that derived set. -/
theorem applyFilters_section (E : Engine) (cards : List Card) (s : Str) (hs : s ≠ []) :
    applyFilters E cards { search := [], rarity := [], feature := [], sectionValue := s } =
      cards.filter (fun c => deriveSet E c == s) := by
  simp only [applyFilters, toLowerCase_nil]
  apply List.filter_congr
  intro c _
  cases s with
  | nil => exact absurd rfl hs
  | cons a l => simp [matchesCard]

/-- A filter that keeps a member of the list keeps at least one element. -/
theorem length_filter_pos {α : Type} (p : α → Bool) (l : List α) (a : α) (ha : a ∈ l)
    (hp : p a = true) : 1 ≤ (l.filter p).length :=
  List.length_pos_of_mem (List.mem_filter.2 ⟨ha, hp⟩)

/-- C10.  The code at the failing input, and where the claim holds.  Every option of
a select filter is a non-empty string.  For `[{ rarity: "__proto__" }]` the rarity
options are `["__proto__"]`, selecting it keeps the 1 record, and
`aggregate(cards, "rarity")["__proto__"]` is `Object.prototype`, not 1.  For every
collection whose rarity buckets are not property names of `Object.prototype`, each
rarity option `v` selects `aggregate(cards, "rarity")[v]` records, at least 1; for
every collection each set option `s` selects `aggregateBySet(cards)[s]` records, at
least 1. -/
theorem select_options_buckets (E : Engine) :
    (∀ (cards : List Card) (key : Str), ∀ v ∈ uniqueValues E cards key, v ≠ []) ∧
    (∀ (cards : List Card), ∀ s ∈ uniqueSets E cards, s ≠ []) ∧
    uniqueValues E [protoRarityRecord] "rarity".toList = ["__proto__".toList] ∧
    applyFilters E [protoRarityRecord]
      { search := [], rarity := "__proto__".toList, feature := [], sectionValue := [] } =
      [protoRarityRecord] ∧
    getProp (aggregate E [protoRarityRecord] "rarity".toList) "__proto__".toList = .protoObj ∧
    (∀ (cards : List Card),
      (∀ card ∈ cards, bucketOf E "rarity".toList card ∉ reservedKeys) →
      ∀ v ∈ uniqueValues E cards "rarity".toList,
        getProp (aggregate E cards "rarity".toList) v =
          .num (applyFilters E cards
            { search := [], rarity := v, feature := [], sectionValue := [] }).length ∧
        1 ≤ (applyFilters E cards
            { search := [], rarity := v, feature := [], sectionValue := [] }).length) ∧
    (∀ (cards : List Card), ∀ s ∈ uniqueSets E cards,
        getProp (aggregateBySet E cards) s =
          .num (applyFilters E cards
            { search := [], rarity := [], feature := [], sectionValue := s }).length ∧
        1 ≤ (applyFilters E cards
            { search := [], rarity := [], feature := [], sectionValue := s }).length) := by
  have ha : ∀ (cards : List Card) (key : Str), ∀ v ∈ uniqueValues E cards key, v ≠ [] := by
    intro cards key v hv
    obtain ⟨card, _, rfl⟩ := (mem_uniqueValues E cards key v).1 hv
    exact normalizeText_unknown_ne_nil E _
  have hb : ∀ (cards : List Card), ∀ s ∈ uniqueSets E cards, s ≠ [] := by
    intro cards s hs
    obtain ⟨card, _, rfl⟩ := (mem_uniqueSets E cards s).1 hs
    exact deriveSet_ne_nil E card
  refine ⟨ha, hb, rfl, ?_, rfl, ?_, ?_⟩
  · rw [applyFilters_rarity E _ _ (by decide)]
    rfl
  · intro cards hsafe v hv
    obtain ⟨card, hc, rfl⟩ := (mem_uniqueValues E cards _ v).1 hv
    rw [applyFilters_rarity E cards _ (ha cards _ _ hv)]
    refine ⟨?_, length_filter_pos _ _ card hc (by simp)⟩
    exact getProp_aggregate E cards _ hsafe card hc
  · intro cards s hs
    obtain ⟨card, hc, rfl⟩ := (mem_uniqueSets E cards s).1 hs
    rw [applyFilters_section E cards _ (hb cards _ hs)]
    refine ⟨?_, length_filter_pos _ _ card hc (by simp)⟩
    rw [aggregateBySet_eq, getProp_frequencies _ _ (List.mem_map_of_mem _ hc),
      List.count_eq_countP, List.countP_map, List.countP_eq_length_filter]
    rfl

/-- C10, witness: for the records A, B, C no rarity bucket is a property name of
`Object.prototype`; `"R"` is a rarity option, selecting it keeps 2 records, and
`aggregate(cards, "rarity")["R"]` is 2. -/
theorem select_options_buckets_witness :
    (∀ card ∈ [recordA, recordB, recordC],
      bucketOf asciiEngine "rarity".toList card ∉ reservedKeys) ∧
    "R".toList ∈ uniqueValues asciiEngine [recordA, recordB, recordC] "rarity".toList ∧
    getProp (aggregate asciiEngine [recordA, recordB, recordC] "rarity".toList) "R".toList =
      .num 2 ∧
    (applyFilters asciiEngine [recordA, recordB, recordC]
      { search := [], rarity := "R".toList, feature := [], sectionValue := [] }).length = 2 := by
  have h : ∀ card ∈ [recordA, recordB, recordC],
      bucketOf asciiEngine "rarity".toList card ∉ reservedKeys := by decide
  have hv : "R".toList ∈ uniqueValues asciiEngine [recordA, recordB, recordC] "rarity".toList := by
    decide
  have hg := (select_options_buckets asciiEngine).2.2.2.2.2.1 [recordA, recordB, recordC] h
    "R".toList hv
  have hlen : (applyFilters asciiEngine [recordA, recordB, recordC]
      { search := [], rarity := "R".toList, feature := [], sectionValue := [] }).length = 2 := by
    decide
  refine ⟨h, hv, ?_, hlen⟩
  rw [hg.1, hlen]
  rfl

/-! ## Cross-tabulation: properties -/

/-- Looking up the key of the first entry. -/
theorem lookup_cons_eq {β : Type} (o : List (Str × β)) (k : Str) (v : β) :
    ((k, v) :: o).lookup k = some v := by
  simp [List.lookup_cons]

/-- Looking up a key other than that of the first entry. -/
theorem lookup_cons_ne {β : Type} (o : List (Str × β)) (k k' : Str) (v : β) (h : k' ≠ k) :
    ((k, v) :: o).lookup k' = o.lookup k' := by
  have : (k' == k) = false := by simpa using h
  simp [List.lookup_cons, this]

/-- Looking a key up after overwriting the entries of a key. -/
theorem lookup_update {β : Type} (o : List (Str × β)) (k k' : Str) (v : β) :
    (o.map (fun p => if p.1 = k then (k, v) else p)).lookup k' =
      if k' = k then (o.lookup k).map (fun _ => v) else o.lookup k' := by
  induction o with
  | nil => simp
  | cons a o ih =>
    obtain ⟨ka, va⟩ := a
    rw [List.map_cons]
    by_cases hka : ka = k
    · subst hka
      rw [if_pos rfl]
      by_cases hk' : k' = ka
      · subst hk'
        rw [lookup_cons_eq, if_pos rfl, lookup_cons_eq]
        rfl
      · rw [lookup_cons_ne _ _ _ _ hk', ih, if_neg hk', if_neg hk', lookup_cons_ne _ _ _ _ hk']
    · rw [if_neg hka]
      by_cases hk' : k' = ka
      · subst hk'
        rw [lookup_cons_eq, if_neg hka, lookup_cons_eq]
      · rw [lookup_cons_ne _ _ _ _ hk', ih]
        by_cases hkk : k' = k
        · subst hkk
          rw [if_pos rfl, if_pos rfl, lookup_cons_ne _ _ _ _ hk']
        · rw [if_neg hkk, if_neg hkk, lookup_cons_ne _ _ _ _ hk']

/-- Looking a key up after appending an entry. -/
theorem lookup_concat {β : Type} (o : List (Str × β)) (k k' : Str) (v : β) :
    (o ++ [(k, v)]).lookup k' =
      match o.lookup k' with
      | some x => some x
      | none => if k' = k then some v else none := by
  induction o with
  | nil =>
    rw [List.nil_append]
    by_cases h : k' = k
    · subst h
      rw [lookup_cons_eq]
      simp
    · rw [lookup_cons_ne _ _ _ _ h]
      simp [h]
  | cons a o ih =>
    obtain ⟨ka, va⟩ := a
    rw [List.cons_append]
    by_cases h : k' = ka
    · subst h
      rw [lookup_cons_eq, lookup_cons_eq]
    · rw [lookup_cons_ne _ _ _ _ h, lookup_cons_ne _ _ _ _ h, ih]

/-- Reading a property after assigning one whose name is not `__proto__`. -/
theorem getProp_setProp (o : Obj) (k k' : Str) (v : JsVal) (hk : k ≠ protoKey) :
    getProp (setProp o k v) k' = if k' = k then v else getProp o k' := by
  unfold setProp
  cases ho : o.lookup k with
  | some x =>
    simp only [Option.isSome_some, if_true, getProp, lookup_update, ho, Option.map_some']
    by_cases h : k' = k
    · simp [h]
    · simp [h]
  | none =>
    simp only [Option.isSome_none, Bool.false_eq_true, if_false, hk, getProp, lookup_concat]
    by_cases h : k' = k
    · subst h
      simp [ho]
    · cases o.lookup k' <;> simp [h]

/-- After `table[s] = row` the read `table[s]` yields `row`, and every other read yields the
row object it yielded before, if it yielded one. -/
theorem rowOf_write (t : Table) (s s' : Str) (row : Obj) :
    (t.write s row).rowOf s' = if s' = s then some row else t.rowOf s' := by
  unfold Table.write
  cases hl : t.rows.lookup s with
  | some x =>
    simp only [Option.isSome_some, if_true, Table.rowOf, Table.read, lookup_update, hl,
      Option.map_some']
    by_cases h : s' = s
    · simp [h]
    · simp [h]
  | none =>
    simp only [Option.isSome_none, Bool.false_eq_true, if_false]
    by_cases hp : s = protoKey
    · simp only [hp, if_true, Table.rowOf, Table.read]
      by_cases h : s' = protoKey
      · subst hp
        simp [h, hl]
      · simp only [h, if_false]
        cases t.rows.lookup s' with
        | some y => rfl
        | none => cases t.proto <;> rfl
    · simp only [hp, if_false, Table.rowOf, Table.read, lookup_concat]
      by_cases h : s' = s
      · subst h
        simp [hl]
      · cases t.rows.lookup s' with
        | some y => simp [h]
        | none => simp [h]

/-- When `table[s]` reads a row object, the loop body counts in that row. -/
theorem countCell_of_rowOf (E : Engine) (t : Table) (s r : Str) (row : Obj)
    (h : t.rowOf s = some row) :
    countCell E t s r = some (t.write s (countInRow E row r)) := by
  unfold Table.rowOf at h
  unfold countCell
  cases hr : t.read s with
  | own row0 =>
    rw [hr] at h
    simp only [Option.some.injEq] at h
    subst h
    simp only [hr]
  | viaProto row0 =>
    rw [hr] at h
    simp only [Option.some.injEq] at h
    subst h
    simp only [hr]
    unfold Table.read at hr
    cases hl : t.rows.lookup s with
    | some x => rw [hl] at hr; cases hr
    | none =>
      rw [hl] at hr
      by_cases hp : s = protoKey
      · subst hp
        simp only [Table.write, hl, Option.isSome_none, Bool.false_eq_true, if_false, if_true]
      · simp only [hp, if_false] at hr
        cases hq : t.proto with
        | none => rw [hq] at hr; cases hr
        | some q => rw [hq] at hr; cases hr
  | other v =>
    rw [hr] at h
    cases h

/-- The cells of a row after `rarities.forEach((r) => (row[r] = 0))`. -/
theorem getProp_zero_fold (rarities : List Str) (row : Obj) (r : Str)
    (hne : ∀ x ∈ rarities, x ≠ protoKey) :
    getProp (rarities.foldl (fun row r => setProp row r (.num 0)) row) r =
      if r ∈ rarities then .num 0 else getProp row r := by
  induction rarities generalizing row with
  | nil => simp
  | cons a l ih =>
    rw [List.foldl_cons, ih _ (fun x hx => hne x (List.mem_cons_of_mem _ hx)),
      getProp_setProp _ _ _ _ (hne a (List.mem_cons_self _ _))]
    by_cases h1 : r ∈ l
    · simp [h1]
    · by_cases h2 : r = a
      · simp [h2]
      · simp [h1, h2]

/-- The cells of a row after counting one record in a cell that held a number. -/
theorem getProp_countInRow (E : Engine) (row : Obj) (r r' : Str) (n : Int) (hr : r ≠ protoKey)
    (h : getProp row r = .num n) :
    getProp (countInRow E row r) r' = if r' = r then .num (n + 1) else getProp row r' := by
  simp only [countInRow, h, reduceCtorEq, if_false, jsAddOne]
  exact getProp_setProp row r r' _ hr

/-- The number of records with a pair of keys, after one more record. -/
theorem pairCount_concat (primaryFn secondaryFn : Card → Str) (done : List Card) (c : Card)
    (p r : Str) :
    pairCount primaryFn secondaryFn (done ++ [c]) p r =
      pairCount primaryFn secondaryFn done p r +
        if primaryFn c = p ∧ secondaryFn c = r then 1 else 0 := by
  simp only [pairCount, List.filter_append, List.length_append, List.filter_cons,
    List.filter_nil, Bool.and_eq_true, beq_iff_eq]
  split <;> rfl

/-- The loop body keeps the table tallied. -/
theorem tallied_step (E : Engine) (primaryFn secondaryFn : Card → Str)
    (sections rarities : List Str) (hne : ∀ x ∈ rarities, x ≠ protoKey)
    (t : Table) (done : List Card) (c : Card)
    (hs : primaryFn c ∈ sections) (hr : secondaryFn c ∈ rarities)
    (inv : Tallied primaryFn secondaryFn sections rarities t done) :
    ∃ t', countCell E t (primaryFn c) (secondaryFn c) = some t' ∧
      Tallied primaryFn secondaryFn sections rarities t' (done ++ [c]) := by
  obtain ⟨row, hrow, hcells⟩ := inv _ hs
  refine ⟨_, countCell_of_rowOf E t _ _ row hrow, ?_⟩
  intro p hp
  rw [rowOf_write]
  by_cases hps : p = primaryFn c
  · subst hps
    refine ⟨_, if_pos rfl, ?_⟩
    intro r hrr
    rw [getProp_countInRow E row _ r _ (hne _ hr) (hcells _ hr), pairCount_concat]
    by_cases h : r = secondaryFn c
    · subst h
      simp
    · have h' : ¬ secondaryFn c = r := fun e => h e.symm
      simp [h, h', hcells r hrr]
  · obtain ⟨row', hrow', hcells'⟩ := inv p hp
    refine ⟨row', by rw [if_neg hps]; exact hrow', ?_⟩
    intro r hrr
    have h' : ¬ primaryFn c = p := fun e => hps e.symm
    rw [pairCount_concat, hcells' r hrr]
    simp [h']

/-- The second loop of `buildStackedData` completes and keeps the table tallied. -/
theorem tallied_foldlM (E : Engine) (primaryFn secondaryFn : Card → Str)
    (sections rarities : List Str) (hne : ∀ x ∈ rarities, x ≠ protoKey)
    (rest : List Card) (t : Table) (done : List Card)
    (hrest : ∀ c ∈ rest, primaryFn c ∈ sections ∧ secondaryFn c ∈ rarities)
    (inv : Tallied primaryFn secondaryFn sections rarities t done) :
    ∃ t', rest.foldlM (fun t card => countCell E t (primaryFn card) (secondaryFn card)) t =
        some t' ∧
      Tallied primaryFn secondaryFn sections rarities t' (done ++ rest) := by
  induction rest generalizing t done with
  | nil => exact ⟨t, rfl, by simpa using inv⟩
  | cons c rest ih =>
    obtain ⟨h1, h2⟩ := hrest c (List.mem_cons_self _ _)
    obtain ⟨t1, ht1, inv1⟩ := tallied_step E primaryFn secondaryFn sections rarities hne t done c
      h1 h2 inv
    obtain ⟨t2, ht2, inv2⟩ := ih t1 (done ++ [c])
      (fun x hx => hrest x (List.mem_cons_of_mem _ hx)) inv1
    refine ⟨t2, ?_, by simpa using inv2⟩
    rw [List.foldlM_cons, ht1]
    exact ht2

/-- After the first loop every primary label reads the row of zeros. -/
theorem rowOf_init (rarities sections : List Str) (t : Table) (p : Str) :
    (sections.foldl (fun t s => initRow t rarities s) t).rowOf p =
      if p ∈ sections then some (zeroRow rarities) else t.rowOf p := by
  induction sections generalizing t with
  | nil => simp
  | cons a l ih =>
    rw [List.foldl_cons, ih, initRow, rowOf_write]
    by_cases h1 : p ∈ l
    · simp [h1]
    · by_cases h2 : p = a
      · simp [h2, zeroRow]
      · simp [h1, h2]

/-- Summing, over a list, the indicator of a value counts its occurrences. -/
theorem sum_indicator (R : List Str) (x : Str) :
    (R.map (fun r => if x = r then 1 else 0)).sum = R.count x := by
  induction R with
  | nil => rfl
  | cons a R ih =>
    rw [List.map_cons, List.sum_cons, ih, List.count_cons]
    by_cases h : x = a
    · subst h; simp; omega
    · have h' : (a == x) = false := by simpa using fun e : a = x => h e.symm
      simp [h, h']

/-- Over the distinct secondary labels, the numbers of records with a primary label and
that secondary label sum to the number of records with the primary label. -/
theorem sum_pairCount (primaryFn secondaryFn : Card → Str) (cards : List Card) (p : Str)
    (R : List Str) (hR : R.Nodup) (hall : ∀ c ∈ cards, secondaryFn c ∈ R) :
    (R.map (pairCount primaryFn secondaryFn cards p)).sum =
      (cards.filter (fun c => primaryFn c == p)).length := by
  induction cards with
  | nil =>
    have : pairCount primaryFn secondaryFn [] p = fun _ => 0 := by
      funext r; rfl
    rw [this]
    simp
  | cons c cs ih =>
    have hstep : ∀ r, pairCount primaryFn secondaryFn (c :: cs) p r =
        (if primaryFn c = p then (if secondaryFn c = r then 1 else 0) else 0) +
          pairCount primaryFn secondaryFn cs p r := by
      intro r
      simp only [pairCount, List.filter_cons, Bool.and_eq_true, beq_iff_eq]
      by_cases h1 : primaryFn c = p <;> by_cases h2 : secondaryFn c = r <;>
        simp [h1, h2]
      omega
    have hfun : pairCount primaryFn secondaryFn (c :: cs) p = fun r =>
        (if primaryFn c = p then (if secondaryFn c = r then 1 else 0) else 0) +
          pairCount primaryFn secondaryFn cs p r := funext hstep
    rw [hfun, List.sum_map_add, ih (fun x hx => hall x (List.mem_cons_of_mem _ hx))]
    by_cases h1 : primaryFn c = p
    · have hc : R.count (secondaryFn c) = 1 := by
        rw [count_inst]
        exact List.count_eq_one_of_mem hR (hall c (List.mem_cons_self _ _))
      simp only [h1, if_true, sum_indicator, hc, List.filter_cons, beq_self_eq_true,
        List.length_cons]
      omega
    · have h1' : (primaryFn c == p) = false := by simpa using h1
      simp [h1, h1']

/-- The second loop of `buildStackedData` completes when every primary label reads a row. -/
theorem rowed_foldlM (E : Engine) (primaryFn secondaryFn : Card → Str) (sections : List Str)
    (rest : List Card) (t : Table)
    (hrest : ∀ c ∈ rest, primaryFn c ∈ sections)
    (inv : ∀ p ∈ sections, (t.rowOf p).isSome = true) :
    (rest.foldlM (fun t card => countCell E t (primaryFn card) (secondaryFn card)) t).isSome =
      true := by
  induction rest generalizing t with
  | nil => rfl
  | cons c rest ih =>
    obtain ⟨row, hrow⟩ := Option.isSome_iff_exists.1 (inv _ (hrest c (List.mem_cons_self _ _)))
    rw [List.foldlM_cons, countCell_of_rowOf E t _ _ row hrow]
    apply ih _ (fun x hx => hrest x (List.mem_cons_of_mem _ hx))
    intro p hp
    rw [rowOf_write]
    split
    · rfl
    · exact inv p hp

/-- The embedding follows `buildStackedData` to its result on every input. -/
theorem buildStackedData_isSome (E : Engine) (cards : List Card)
    (primaryFn secondaryFn : Card → Str) :
    (buildStackedData E cards primaryFn secondaryFn).isSome = true := by
  simp only [buildStackedData, Option.isSome_map']
  apply rowed_foldlM E primaryFn secondaryFn (distinct (cards.map primaryFn))
  · intro c hc
    exact (mem_distinct _ _).2 (List.mem_map_of_mem _ hc)
  · intro p hp
    rw [rowOf_init, if_pos hp]
    rfl

/-- The read `table[p][r]` when `table[p]` reads a row object. -/
theorem cell_of_rowOf (t : Table) (p r : Str) (row : Obj) (h : t.rowOf p = some row) :
    t.cell p r = some (getProp row r) := by
  unfold Table.rowOf at h
  unfold Table.cell
  cases hr : t.read p with
  | own row0 => rw [hr] at h; simp only [Option.some.injEq] at h; rw [h]
  | viaProto row0 => rw [hr] at h; simp only [Option.some.injEq] at h; rw [h]
  | other v => rw [hr] at h; cases h

/-- C6.  The code at the failing input, and where the claim holds.  For
`[{ rarity: "__proto__" }]` with the key functions of `drawCharts` the result has
labels `["Unknown"]`, series `["__proto__"]` and the row `{}`: the read
`table["Unknown"]["__proto__"]` is `Object.prototype`, not the count 1.  The function
returns a result on every input.  For every collection and string-valued key
functions whose secondary key is never `"__proto__"`, each primary label `p` has a
row whose cell for each secondary label `r` is the number of records with keys
`(p, r)`, and these cells sum, over the series, to the number of records whose primary
key is `p`. -/
theorem buildStackedData_rows (E : Engine) :
    buildStackedData E [protoRarityRecord] (deriveSet E) (bucketOf E "rarity".toList) =
      some { labels := ["Unknown".toList], series := ["__proto__".toList],
             table := { rows := [("Unknown".toList, [])], proto := none } } ∧
    Table.cell { rows := [("Unknown".toList, [])], proto := none } "Unknown".toList
      "__proto__".toList = some .protoObj ∧
    (∀ (cards : List Card) (primaryFn secondaryFn : Card → Str),
      (buildStackedData E cards primaryFn secondaryFn).isSome = true) ∧
    (∀ (cards : List Card) (primaryFn secondaryFn : Card → Str),
      (∀ c ∈ cards, secondaryFn c ≠ protoKey) →
      ∃ d, buildStackedData E cards primaryFn secondaryFn = some d ∧
        d.labels = distinct (cards.map primaryFn) ∧
        d.series = distinct (cards.map secondaryFn) ∧
        ∀ p ∈ d.labels,
          (∀ r ∈ d.series,
            d.table.cell p r = some (.num (pairCount primaryFn secondaryFn cards p r))) ∧
          (d.series.map (pairCount primaryFn secondaryFn cards p)).sum =
            (cards.filter (fun c => primaryFn c == p)).length) := by
  refine ⟨rfl, rfl, buildStackedData_isSome E, ?_⟩
  intro cards primaryFn secondaryFn hsec
  have hne : ∀ x ∈ distinct (cards.map secondaryFn), x ≠ protoKey := by
    intro x hx
    obtain ⟨c, hc, rfl⟩ := List.mem_map.1 ((mem_distinct _ _).1 hx)
    exact hsec c hc
  have hinit : Tallied primaryFn secondaryFn (distinct (cards.map primaryFn))
      (distinct (cards.map secondaryFn))
      ((distinct (cards.map primaryFn)).foldl
        (fun t s => initRow t (distinct (cards.map secondaryFn)) s) { rows := [], proto := none })
      [] := by
    intro p hp
    refine ⟨zeroRow (distinct (cards.map secondaryFn)), by rw [rowOf_init, if_pos hp], ?_⟩
    intro r hr
    rw [zeroRow, getProp_zero_fold _ _ _ hne, if_pos hr]
    rfl
  obtain ⟨t', ht', inv⟩ := tallied_foldlM E primaryFn secondaryFn _ _ hne cards _ [] (by
    intro c hc
    exact ⟨(mem_distinct _ _).2 (List.mem_map_of_mem _ hc),
      (mem_distinct _ _).2 (List.mem_map_of_mem _ hc)⟩) hinit
  refine ⟨{ labels := distinct (cards.map primaryFn), series := distinct (cards.map secondaryFn),
            table := t' }, ?_, rfl, rfl, ?_⟩
  · simp only [buildStackedData, ht', Option.map_some']
  · intro p hp
    obtain ⟨row, hrow, hcells⟩ := inv p hp
    refine ⟨?_, ?_⟩
    · intro r hr
      rw [cell_of_rowOf _ _ _ _ hrow, hcells r hr]
      simp
    · apply sum_pairCount _ _ _ _ _ (nodup_distinct _)
      intro c hc
      exact (mem_distinct _ _).2 (List.mem_map_of_mem _ hc)

/-- C6, witness: for the records A, B, C keyed by feature and rarity no secondary key
is `"__proto__"`; the row of `"Kaiju"` holds 1 under `"R"` and 1 under `"SR"`, which
sum to the 2 records whose feature is `"Kaiju"`. -/
theorem buildStackedData_rows_witness :
    (∀ c ∈ [recordA, recordB, recordC], bucketOf asciiEngine "rarity".toList c ≠ protoKey) ∧
    ∃ d, buildStackedData asciiEngine [recordA, recordB, recordC]
        (bucketOf asciiEngine "feature".toList) (bucketOf asciiEngine "rarity".toList) = some d ∧
      d.labels = ["Kaiju".toList, "Ultra Hero".toList] ∧
      d.series = ["R".toList, "SR".toList] ∧
      d.table.cell "Kaiju".toList "R".toList = some (.num 1) ∧
      d.table.cell "Kaiju".toList "SR".toList = some (.num 1) ∧
      ([recordA, recordB, recordC].filter
        (fun c => bucketOf asciiEngine "feature".toList c == "Kaiju".toList)).length = 2 := by
  have h : ∀ c ∈ [recordA, recordB, recordC],
      bucketOf asciiEngine "rarity".toList c ≠ protoKey := by decide
  obtain ⟨d, hd, hl, hs, hrows⟩ := (buildStackedData_rows asciiEngine).2.2.2
    [recordA, recordB, recordC] (bucketOf asciiEngine "feature".toList)
    (bucketOf asciiEngine "rarity".toList) h
  have hl' : d.labels = ["Kaiju".toList, "Ultra Hero".toList] := by rw [hl]; decide
  have hs' : d.series = ["R".toList, "SR".toList] := by rw [hs]; decide
  have hk := (hrows "Kaiju".toList (by rw [hl']; decide)).1
  refine ⟨h, d, hd, hl', hs', ?_, ?_, by decide⟩
  · rw [hk "R".toList (by rw [hs']; decide)]; rfl
  · rw [hk "SR".toList (by rw [hs']; decide)]; rfl

/-! ## Payload extraction: properties -/

/-- C8.  The code at the failing inputs, and where the claim holds.  On the payload
`null` the read `payload.data` raises a `TypeError`: `fetchCards` stores nothing and
the state keeps the collection it had.  On `{ "data": "abc" }` and `{ "data": {} }`
the string and the object are stored as the collection.  An array payload is stored
itself, an object with a `data` array stores that array, and an object without
`data` or with a falsy `data`, a boolean, a number and a string store the empty
collection. -/
theorem fetchCards_shapes :
    extractCards .null = .error .typeError ∧
    fetchCards loadedState .null = loadedState ∧
    fetchCards loadedState (.obj [("data".toList, .str "abc".toList)]) =
      { cards := .str "abc".toList, filtered := .str "abc".toList } ∧
    fetchCards loadedState (.obj [("data".toList, .obj [])]) =
      { cards := .obj [], filtered := .obj [] } ∧
    (∀ (st : State) (items : List Json),
      fetchCards st (.arr items) = { cards := .arr items, filtered := .arr items }) ∧
    (∀ (st : State) (props : List (Str × Json)) (items : List Json),
      props.lookup "data".toList = some (.arr items) →
      fetchCards st (.obj props) = { cards := .arr items, filtered := .arr items }) ∧
    (∀ (st : State) (props : List (Str × Json)),
      props.lookup "data".toList = none →
      fetchCards st (.obj props) = { cards := .arr [], filtered := .arr [] }) ∧
    (∀ (st : State) (props : List (Str × Json)) (v : Json),
      props.lookup "data".toList = some v → v.truthy = false →
      fetchCards st (.obj props) = { cards := .arr [], filtered := .arr [] }) ∧
    (∀ (st : State) (b : Bool),
      fetchCards st (.bool b) = { cards := .arr [], filtered := .arr [] }) ∧
    (∀ (st : State) (n : Int),
      fetchCards st (.num n) = { cards := .arr [], filtered := .arr [] }) ∧
    (∀ (st : State) (s : Str),
      fetchCards st (.str s) = { cards := .arr [], filtered := .arr [] }) := by
  refine ⟨rfl, rfl, rfl, rfl, fun _ _ => rfl, ?_, ?_, ?_, fun _ _ => rfl, fun _ _ => rfl,
    fun _ _ => rfl⟩
  · intro st props items h
    simp only [fetchCards, extractCards, h, Json.truthy, if_true]
  · intro st props h
    simp only [fetchCards, extractCards, h]
  · intro st props v h hv
    simp only [fetchCards, extractCards, h, hv, Bool.false_eq_true, if_false]

end Nebula
